import Mathlib

/-!
Shallow embedding of the mcp_mother_skills synchronization engine:
project detection (ProjectDetector.addDetection and the SKILL_TRIGGERS
table), registry aggregation (RegistryClient.getAllSkills), skill
matching, dependency resolution, sync preview and confirmation
(SkillInstaller.previewSync / confirmSync).  JavaScript numbers are
modelled as rationals, optional fields as `Option`, JS `Map`s as
association lists in insertion order, and the LIFO work list of the
dependency resolver as a list whose head is the next element popped.
-/

namespace MotherSkills

/-- Category keys of a DetectedStack (the five parallel collections). -/
inductive Category where
  | languages
  | frameworks
  | databases
  | infrastructure
  | tools
deriving DecidableEq

/-- DetectedTechnology from types.ts: `{id, name?, version?, confidence, source}`.
Optional fields are `Option`; an absent key is `none`. -/
structure DetectedTechnology where
  id : String
  name : Option String := none
  version : Option String := none
  confidence : ℚ
  source : String
deriving DecidableEq

/-- DetectedStack from types.ts: five parallel lists of detected technologies. -/
structure DetectedStack where
  languages : List DetectedTechnology
  frameworks : List DetectedTechnology
  databases : List DetectedTechnology
  infrastructure : List DetectedTechnology
  tools : List DetectedTechnology
deriving DecidableEq

/-- The empty stack, as initialized at the start of ProjectDetector.detect. -/
def emptyStack : DetectedStack :=
  { languages := [], frameworks := [], databases := [], infrastructure := [], tools := [] }

/-- Value type of the SKILL_TRIGGERS table in the detector module. -/
structure TriggerDef where
  category : Category
  packages : Option (List String) := none
  files : Option (List String) := none
  readmeKeywords : Option (List String) := none

/-- The SKILL_TRIGGERS table of the detector module, keyed by skill id. -/
def SKILL_TRIGGERS : List (String × TriggerDef) := [
  ("typescript",
   { category := .languages, packages := some ["typescript"],
     files := some ["tsconfig.json", "*.ts", "*.tsx"] }),
  ("python",
   { category := .languages,
     files := some ["*.py", "pyproject.toml", "requirements.txt", "setup.py", "Pipfile"] }),
  ("rust", { category := .languages, files := some ["Cargo.toml", "*.rs"] }),
  ("go", { category := .languages, files := some ["go.mod", "go.sum", "*.go"] }),
  ("java", { category := .languages, files := some ["pom.xml", "build.gradle", "*.java"] }),
  ("csharp", { category := .languages, files := some ["*.csproj", "*.cs", "*.sln"] }),
  ("react", { category := .frameworks, packages := some ["react", "react-dom"] }),
  ("nextjs",
   { category := .frameworks, packages := some ["next"],
     files := some ["next.config.js", "next.config.mjs", "next.config.ts"] }),
  ("vue",
   { category := .frameworks, packages := some ["vue"],
     files := some ["vue.config.js", "nuxt.config.js"] }),
  ("angular",
   { category := .frameworks, packages := some ["@angular/core"],
     files := some ["angular.json"] }),
  ("svelte",
   { category := .frameworks, packages := some ["svelte"],
     files := some ["svelte.config.js"] }),
  ("vite",
   { category := .tools, packages := some ["vite"],
     files := some ["vite.config.js", "vite.config.ts"] }),
  ("express", { category := .frameworks, packages := some ["express"] }),
  ("fastify", { category := .frameworks, packages := some ["fastify"] }),
  ("nestjs", { category := .frameworks, packages := some ["@nestjs/core"] }),
  ("fastapi", { category := .frameworks, packages := some ["fastapi"] }),
  ("django",
   { category := .frameworks, packages := some ["django"],
     files := some ["manage.py"] }),
  ("flask", { category := .frameworks, packages := some ["flask"] }),
  ("postgresql",
   { category := .databases,
     packages := some ["pg", "postgres", "psycopg2", "psycopg2-binary", "asyncpg"],
     readmeKeywords := some ["postgresql", "postgres"] }),
  ("mongodb",
   { category := .databases, packages := some ["mongodb", "mongoose", "pymongo"],
     readmeKeywords := some ["mongodb", "mongo"] }),
  ("mysql",
   { category := .databases, packages := some ["mysql", "mysql2", "mysqlclient"],
     readmeKeywords := some ["mysql"] }),
  ("redis",
   { category := .databases, packages := some ["redis", "ioredis"],
     readmeKeywords := some ["redis"] }),
  ("sqlite",
   { category := .databases, packages := some ["sqlite3", "better-sqlite3"],
     files := some ["*.sqlite", "*.db"] }),
  ("prisma",
   { category := .tools, packages := some ["prisma", "@prisma/client"],
     files := some ["prisma/schema.prisma"] }),
  ("drizzle",
   { category := .tools, packages := some ["drizzle-orm"],
     files := some ["drizzle.config.ts"] }),
  ("docker",
   { category := .infrastructure,
     files := some ["Dockerfile", "docker-compose.yaml", "docker-compose.yml", ".dockerignore"] }),
  ("kubernetes",
   { category := .infrastructure,
     files := some ["k8s/**/*.yaml", "kubernetes/**/*.yaml", "helm/**/*.yaml"],
     readmeKeywords := some ["kubernetes", "k8s"] }),
  ("terraform", { category := .infrastructure, files := some ["*.tf", "terraform/**/*.tf"] }),
  ("github-actions",
   { category := .infrastructure,
     files := some [".github/workflows/*.yaml", ".github/workflows/*.yml"] }),
  ("aws",
   { category := .infrastructure, packages := some ["@aws-sdk/*", "aws-sdk", "boto3"],
     files := some ["serverless.yml", "sam.yaml", "template.yaml"],
     readmeKeywords := some ["aws", "amazon web services"] }),
  ("jest",
   { category := .tools, packages := some ["jest"],
     files := some ["jest.config.js", "jest.config.ts"] }),
  ("vitest",
   { category := .tools, packages := some ["vitest"],
     files := some ["vitest.config.ts"] }),
  ("playwright",
   { category := .tools, packages := some ["playwright", "@playwright/test"],
     files := some ["playwright.config.ts"] }),
  ("pytest",
   { category := .tools, packages := some ["pytest"],
     files := some ["pytest.ini", "conftest.py"] }),
  ("eslint",
   { category := .tools, packages := some ["eslint"],
     files := some [".eslintrc", ".eslintrc.js", ".eslintrc.json", "eslint.config.js"] }),
  ("prettier",
   { category := .tools, packages := some ["prettier"],
     files := some [".prettierrc", "prettier.config.js"] }),
  ("tailwindcss",
   { category := .tools, packages := some ["tailwindcss"],
     files := some ["tailwind.config.js", "tailwind.config.ts"] }),
  ("graphql",
   { category := .tools,
     packages := some ["graphql", "@apollo/client", "apollo-server"],
     files := some ["*.graphql", "schema.graphql"] })]

/-- Lookup `SKILL_TRIGGERS[id]` (JS object indexing: undefined if absent). -/
def lookupTrigger (id : String) : Option TriggerDef :=
  (SKILL_TRIGGERS.find? (fun e => e.1 == id)).map (·.2)

/-- Semantics of `Object.assign(existing, detection)` on two DetectedTechnology
records: every field present on the incoming record overwrites the existing
one; an absent optional key (modelled `none`) leaves the existing value. -/
def assignTech (existing detection : DetectedTechnology) : DetectedTechnology :=
  { id := detection.id,
    name := detection.name.or existing.name,
    version := detection.version.or existing.version,
    confidence := detection.confidence,
    source := detection.source }

/-- One category list updated by addDetection: `find` the first entry with the
same id; if found and the incoming confidence is strictly higher, assign the
incoming fields onto it; if found otherwise, leave the list unchanged; if not
found, push the incoming detection at the end. -/
def addToList : List DetectedTechnology → DetectedTechnology → List DetectedTechnology
  | [], d => [d]
  | x :: xs, d =>
    if x.id == d.id then
      if d.confidence > x.confidence then assignTech x d :: xs else x :: xs
    else
      x :: addToList xs d

/-- Read the category list of a stack. -/
def DetectedStack.get (s : DetectedStack) : Category → List DetectedTechnology
  | .languages => s.languages
  | .frameworks => s.frameworks
  | .databases => s.databases
  | .infrastructure => s.infrastructure
  | .tools => s.tools

/-- Replace the category list of a stack. -/
def DetectedStack.set (s : DetectedStack) (c : Category) (l : List DetectedTechnology) :
    DetectedStack :=
  match c with
  | .languages => { s with languages := l }
  | .frameworks => { s with frameworks := l }
  | .databases => { s with databases := l }
  | .infrastructure => { s with infrastructure := l }
  | .tools => { s with tools := l }

/-- ProjectDetector.addDetection: look the detection id up in SKILL_TRIGGERS
(no trigger means the detection is ignored), then merge into the trigger's
category list. -/
def addDetection (stack : DetectedStack) (detection : DetectedTechnology) : DetectedStack :=
  match lookupTrigger detection.id with
  | none => stack
  | some trigger =>
      stack.set trigger.category (addToList (stack.get trigger.category) detection)

/-- ProjectDetector.mergeDetections: addDetection folded over a detection list. -/
def mergeDetections (stack : DetectedStack) (detections : List DetectedTechnology) :
    DetectedStack :=
  detections.foldl addDetection stack

/-- SkillTrigger from types.ts. -/
structure SkillTrigger where
  packages : Option (List String) := none
  files : Option (List String) := none
  readme_keywords : Option (List String) := none
  manual_only : Option Bool := none
deriving DecidableEq

/-- RegistrySkill (catalog entry) from types.ts. -/
structure RegistrySkill where
  name : String
  path : String
  version : String
  description : String
  triggers : SkillTrigger
  dependencies : Option (List String) := none
  tags : Option (List String) := none
  last_updated : Option String := none
deriving DecidableEq

/-- RegistrySource from types.ts: a prioritized catalog source. -/
structure RegistrySource where
  url : String
  priority : Int
  auth : Option String := none
deriving DecidableEq

/-- RegistryIndex from types.ts: one source's fetched catalog. -/
structure RegistryIndex where
  version : String
  last_updated : String
  skills : List RegistrySkill
deriving DecidableEq

/-- InstalledSkill from types.ts. -/
structure InstalledSkill where
  name : String
  version : String
  source : String
  installed_at : String
  path : String
  last_updated : Option String := none
deriving DecidableEq

/-- SkillSource from types.ts: provenance of a match. -/
inductive SkillSource where
  | manual
  | discovery
  | dependency
deriving DecidableEq

/-- SkillMatch from skill-installer.ts. -/
structure SkillMatch where
  skill : RegistrySkill
  matchedBy : String
  confidence : ℚ
  source : SkillSource
deriving DecidableEq

/-- Action field of a PendingSkillChange. -/
inductive ChangeAction where
  | add
  | update
  | remove
deriving DecidableEq

/-- SkillChange from types.ts; optional keys are `Option` fields. -/
structure SkillChange where
  name : String
  version : String
  oldVersion : Option String := none
  source : Option SkillSource := none
  matchedBy : Option String := none
deriving DecidableEq

/-- PendingSkillChange from types.ts: a SkillChange plus action and reason. -/
structure PendingSkillChange where
  name : String
  version : String
  oldVersion : Option String := none
  source : Option SkillSource := none
  matchedBy : Option String := none
  action : ChangeAction
  reason : String
deriving DecidableEq

/-- SyncPreview from types.ts. -/
structure SyncPreview where
  pending_changes : List PendingSkillChange
  manual_skills : List String
  discovered_skills : List String
  requires_confirmation : Bool
  preview_id : String
deriving DecidableEq

/-- SyncResult from types.ts; agent ids kept as strings. -/
structure SyncResult where
  added : List SkillChange
  updated : List SkillChange
  removed : List SkillChange
  unchanged : List SkillChange
  agent : List String
  paths : List String
  detected_stack : DetectedStack
deriving DecidableEq

/-- Skills section of MotherConfig. -/
structure SkillsConfig where
  always_include : List String
  always_exclude : List String
deriving DecidableEq

/-- Sync section of MotherConfig. -/
structure SyncConfig where
  auto_remove : Bool
  prompt_on_changes : Bool
deriving DecidableEq

/-- Agent section of MotherConfig; mode and force kept as strings. -/
structure AgentConfig where
  mode : String
  sync_both : Bool
  force : Option String := none
deriving DecidableEq

/-- Cache section of MotherConfig. -/
structure CacheConfig where
  refresh_interval_days : ℚ
  registry_cache : String
  last_refresh : Option String := none
deriving DecidableEq

/-- One detection source descriptor of DetectionConfig. -/
structure DetectionSourceConfig where
  type : String
  patterns : Option (List String) := none
  file : Option String := none
  extract : Option (List String) := none
deriving DecidableEq

/-- Detection section of MotherConfig. -/
structure DetectionConfig where
  enabled : Bool
  sources : List DetectionSourceConfig
deriving DecidableEq

/-- Per-agent override of MotherConfig. -/
structure AgentOverride where
  install_path : Option String := none
deriving DecidableEq

/-- MotherConfig from types.ts. -/
structure MotherConfig where
  version : String
  agent : AgentConfig
  registry : List RegistrySource
  install_path : Option String := none
  agent_overrides : Option (List (String × AgentOverride)) := none
  cache : CacheConfig
  detection : DetectionConfig
  skills : SkillsConfig
  sync : SyncConfig
deriving DecidableEq

/-- Stable insertion of a source into an ascending-priority list (a later
element with equal priority stays after earlier ones, as JS stable sort). -/
def sortInsert (r : RegistrySource) : List RegistrySource → List RegistrySource
  | [] => [r]
  | x :: xs => if r.priority < x.priority then r :: x :: xs else x :: sortInsert r xs

/-- RegistryClient constructor: `registries.sort((a, b) => a.priority - b.priority)`,
a stable ascending sort by priority. -/
def sortByPriority (l : List RegistrySource) : List RegistrySource :=
  l.foldl (fun acc r => sortInsert r acc) []

/-- Path resolution in getAllSkills: keep an absolute http path, otherwise
join the registry url and the relative path (an empty path is falsy in JS
and is joined as well). -/
def resolveSkillPath (registry : RegistrySource) (skill : RegistrySkill) : String :=
  if skill.path != "" && skill.path.startsWith "http" then skill.path
  else registry.url ++ "/" ++ skill.path

/-- One skill step of getAllSkills' inner loop: an already-seen name is
suppressed, otherwise the skill is appended with its resolved path and its
name marked seen. -/
def seenStep (registry : RegistrySource) (acc : List String × List RegistrySkill)
    (skill : RegistrySkill) : List String × List RegistrySkill :=
  if acc.1.contains skill.name then acc
  else (skill.name :: acc.1,
        acc.2 ++ [{ skill with path := resolveSkillPath registry skill }])

/-- Aggregation loop of RegistryClient.getAllSkills over the sorted sources:
a throwing fetch (`none`) contributes nothing; a name already seen suppresses
the skill; otherwise the skill is appended with its resolved path. -/
def aggregateSkills (fetched : RegistrySource → Option RegistryIndex) :
    List RegistrySource → List String → List RegistrySkill → List RegistrySkill
  | [], _, allSkills => allSkills
  | registry :: rest, seenSkills, allSkills =>
    match fetched registry with
    | none => aggregateSkills fetched rest seenSkills allSkills
    | some index =>
      let step := index.skills.foldl (seenStep registry) (seenSkills, allSkills)
      aggregateSkills fetched rest step.1 step.2

/-- RegistryClient.getAllSkills, with the network fetch abstracted as a
function from source to optional index (`none` models a thrown error). -/
def getAllSkills (registries : List RegistrySource)
    (fetched : RegistrySource → Option RegistryIndex) : List RegistrySkill :=
  aggregateSkills fetched (sortByPriority registries) [] []

/-- Char-list test that `needle` is an initial run of the second list. -/
def leadsB : List Char → List Char → Bool
  | [], _ => true
  | _ :: _, [] => false
  | a :: as, b :: bs => a == b && leadsB as bs

/-- Char-list rendering of JS String.includes. -/
def includesB (needle : List Char) : List Char → Bool
  | [] => needle.isEmpty
  | c :: rest => leadsB needle (c :: rest) || includesB needle rest

/-- JS `hay.includes(needle)`. -/
def strIncludes (hay needle : String) : Bool :=
  includesB needle.toList hay.toList

/-- The flattening of a detected stack across its five categories, as at the
start of SkillInstaller.matchSkillsToStack. -/
def allDetectedOf (stack : DetectedStack) : List DetectedTechnology :=
  stack.languages ++ stack.frameworks ++ stack.databases ++ stack.infrastructure ++ stack.tools

/-- Per-catalog-entry body of SkillInstaller.matchSkillsToStack: skip
manual-only entries, then try a direct id match, then the first detected
technology whose source contains one of the trigger package names
(case-insensitively). -/
def matchForSkill (allDetected : List DetectedTechnology) (skill : RegistrySkill) :
    Option SkillMatch :=
  if skill.triggers.manual_only = some true then none
  else
    match allDetected.find? (fun d => d.id == skill.name) with
    | some directMatch =>
      some { skill := skill, matchedBy := "detected: " ++ directMatch.source,
             confidence := directMatch.confidence, source := .discovery }
    | none =>
      match skill.triggers.packages with
      | none => none
      | some pkgs =>
        match allDetected.find?
            (fun d => pkgs.any (fun pkg => strIncludes d.source.toLower pkg.toLower)) with
        | none => none
        | some detected =>
          some { skill := skill, matchedBy := "package trigger: " ++ detected.source,
                 confidence := detected.confidence * 0.9, source := .discovery }

/-- SkillInstaller.matchSkillsToStack: the per-entry matcher applied to every
catalog entry against the flattened stack. -/
def matchSkillsToStack (stack : DetectedStack) (availableSkills : List RegistrySkill) :
    List SkillMatch :=
  availableSkills.filterMap (matchForSkill (allDetectedOf stack))

/-- The manual match pushed for an always_include name. -/
def manualMatchOf (skill : RegistrySkill) : SkillMatch :=
  { skill := skill, matchedBy := "manual (always_include)",
    confidence := 1.0, source := .manual }

/-- The always_include loop of previewSync/syncSkills: a configured name found
in the catalog and not already matched is appended as a manual match with
confidence 1.0. -/
def addManualSkills (availableSkills : List RegistrySkill) (alwaysInclude : List String)
    (matchedSkills : List SkillMatch) : List SkillMatch :=
  alwaysInclude.foldl (fun acc skillName =>
    match availableSkills.find? (fun s => s.name == skillName) with
    | none => acc
    | some skill =>
      if (acc.find? (fun m => m.skill.name == skillName)).isSome then acc
      else acc ++ [manualMatchOf skill]) matchedSkills

/-- JS Map.set on an insertion-ordered association list: an existing key keeps
its position and takes the new value, a new key is appended. -/
def setEntry : List (String × SkillMatch) → String → SkillMatch → List (String × SkillMatch)
  | [], k, v => [(k, v)]
  | (k', v') :: rest, k, v =>
    if k' == k then (k', v) :: rest else (k', v') :: setEntry rest k v

/-- JS Map.has on the association list. -/
def hasKey (l : List (String × SkillMatch)) (k : String) : Bool :=
  l.any (fun e => e.1 == k)

/-- One dependency-name step of the inner loop of resolveDependencies: a name
not yet resolved and present in the catalog is appended to the resolved map
with decayed confidence and stacked for later expansion. -/
def depStep (availableSkills : List RegistrySkill) (current : SkillMatch)
    (acc : List (String × SkillMatch) × List SkillMatch) (depName : String) :
    List (String × SkillMatch) × List SkillMatch :=
  if hasKey acc.1 depName then acc
  else
    match availableSkills.find? (fun s => s.name == depName) with
    | none => acc
    | some depSkill =>
      let depMatch : SkillMatch :=
        { skill := depSkill, matchedBy := "dependency of " ++ current.skill.name,
          confidence := current.confidence * 0.8, source := .dependency }
      (acc.1 ++ [(depName, depMatch)], depMatch :: acc.2)

/-- Inner loop of resolveDependencies for one popped match (the returned push
list has the most recently pushed match first, mirroring the pop-from-the-end
order of the JS array). -/
def expandDeps (availableSkills : List RegistrySkill) (current : SkillMatch)
    (resolved : List (String × SkillMatch)) :
    List (String × SkillMatch) × List SkillMatch :=
  match current.skill.dependencies with
  | none => (resolved, [])
  | some deps => deps.foldl (depStep availableSkills current) (resolved, [])

/-- Count of catalog names (deduplicated) not yet present in the resolved
map — the termination measure component of the dependency closure. -/
def unresolvedCount (availableSkills : List RegistrySkill)
    (resolved : List (String × SkillMatch)) : Nat :=
  (((availableSkills.map (fun s => s.name)).dedup).filter
    (fun n => !(hasKey resolved n))).length

/-- Work-list loop of resolveDependencies, with explicit fuel; the head of the
work list is the next match popped.  `none` is returned only when the fuel runs
out with work remaining. -/
def processDeps (availableSkills : List RegistrySkill) :
    Nat → List SkillMatch → List (String × SkillMatch) → Option (List (String × SkillMatch))
  | _, [], resolved => some resolved
  | 0, _ :: _, _ => none
  | fuel + 1, current :: rest, resolved =>
    let ep := expandDeps availableSkills current resolved
    processDeps availableSkills fuel (ep.2 ++ rest) ep.1

/-- Seeding of the resolved map with the direct matches (Map.set per match). -/
def seedResolved (matches' : List SkillMatch) : List (String × SkillMatch) :=
  matches'.foldl (fun acc m => setEntry acc m.skill.name m) []

/-- Fuel that always suffices for processDeps: one unit per initial work-list
entry plus one per catalog entry. -/
def depFuel (matches' : List SkillMatch) (availableSkills : List RegistrySkill) : Nat :=
  matches'.length + availableSkills.length

/-- SkillInstaller.resolveDependencies: seed the name-keyed map with the
matches, close over declared dependencies, and return the values in insertion
order.  The JS loop pops from the end of the array, so the initial work list
is the reversed match list; the `[]` fallback is unreachable (the fuel is
proven sufficient below). -/
def resolveDependencies (matches' : List SkillMatch) (availableSkills : List RegistrySkill) :
    List SkillMatch :=
  match processDeps availableSkills (depFuel matches' availableSkills)
      matches'.reverse (seedResolved matches') with
  | some resolved => resolved.map (·.2)
  | none => []

/-- The update change pushed by previewSync for a version mismatch: it carries
the catalog version and the installed version as oldVersion. -/
def updateChangeOf (m : SkillMatch) (existing : InstalledSkill) : PendingSkillChange :=
  { name := m.skill.name, version := m.skill.version,
    oldVersion := some existing.version, source := some m.source,
    matchedBy := some m.matchedBy, action := .update,
    reason := "Update from v" ++ existing.version ++ " to v" ++ m.skill.version
      ++ " (" ++ (if m.source = .manual then "manually configured"
                  else "auto-discovered") ++ ")" }

/-- The add change pushed by previewSync for an uninstalled matched skill. -/
def addChangeOf (m : SkillMatch) : PendingSkillChange :=
  { name := m.skill.name, version := m.skill.version, oldVersion := none,
    source := some m.source, matchedBy := some m.matchedBy, action := .add,
    reason := if m.source = .manual then "Manually configured in always_include"
              else "Auto-discovered: " ++ m.matchedBy }

/-- The remove change pushed by previewSync for a no-longer-required skill. -/
def removeChangeOf (i : InstalledSkill) : PendingSkillChange :=
  { name := i.name, version := i.version, oldVersion := none,
    source := some .discovery, matchedBy := none, action := .remove,
    reason := "No longer matches detected stack and not in always_include" }

/-- Per-match branch of the pending-change loop of previewSync: an installed
skill with the same version yields no change, a differing version yields an
update carrying the old version, an uninstalled skill yields an add. -/
def changeForMatch (installedSkills : List InstalledSkill) (m : SkillMatch) :
    Option PendingSkillChange :=
  match installedSkills.find? (fun s => s.name == m.skill.name) with
  | some existing =>
    if existing.version == m.skill.version then none
    else some (updateChangeOf m existing)
  | none => some (addChangeOf m)

/-- Removal branch of previewSync: when auto_remove is enabled, every installed
skill whose name is not required is marked for removal. -/
def removeChanges (finalSkills : List SkillMatch) (installedSkills : List InstalledSkill)
    (autoRemove : Bool) : List PendingSkillChange :=
  if autoRemove then
    (installedSkills.filter
        (fun i => !(finalSkills.any (fun m => m.skill.name == i.name)))).map removeChangeOf
  else []

/-- The full pending-change list built by previewSync: per-match changes in
match order, then removals. -/
def buildPendingChanges (finalSkills : List SkillMatch) (installedSkills : List InstalledSkill)
    (autoRemove : Bool) : List PendingSkillChange :=
  finalSkills.filterMap (changeForMatch installedSkills)
    ++ removeChanges finalSkills installedSkills autoRemove

/-- Names of the manual matches of the final set, in order. -/
def manualSkillNames (finalSkills : List SkillMatch) : List String :=
  (finalSkills.filter (fun m => m.source == .manual)).map (fun m => m.skill.name)

/-- Names of the non-manual matches of the final set, in order. -/
def discoveredSkillNames (finalSkills : List SkillMatch) : List String :=
  (finalSkills.filter (fun m => !(m.source == .manual))).map (fun m => m.skill.name)

/-- SkillInstaller.previewSync with the catalog fetch and id/time generation
abstracted: returns the preview together with the final match set stored in
the session entry. -/
def previewSyncPure (availableSkills : List RegistrySkill) (config : MotherConfig)
    (detectedStack : DetectedStack) (installedSkills : List InstalledSkill)
    (previewId : String) : SyncPreview × List SkillMatch :=
  let matchedSkills := matchSkillsToStack detectedStack availableSkills
  let withManual := addManualSkills availableSkills config.skills.always_include matchedSkills
  let filteredSkills :=
    withManual.filter (fun m => !(config.skills.always_exclude.contains m.skill.name))
  let resolvedSkills := resolveDependencies filteredSkills availableSkills
  let finalSkills :=
    resolvedSkills.filter (fun m => !(config.skills.always_exclude.contains m.skill.name))
  let pendingChanges := buildPendingChanges finalSkills installedSkills config.sync.auto_remove
  ({ pending_changes := pendingChanges,
     manual_skills := manualSkillNames finalSkills,
     discovered_skills := discoveredSkillNames finalSkills,
     requires_confirmation := !pendingChanges.isEmpty && config.sync.prompt_on_changes,
     preview_id := previewId }, finalSkills)

/-- Stored value of the pendingSyncs session map. -/
structure PendingSync where
  preview : SyncPreview
  matches' : List SkillMatch
  installPath : String
  installedSkills : List InstalledSkill
  timestamp : Int
deriving DecidableEq

/-- JS Map.get on the session table. -/
def lookupSession (tbl : List (String × PendingSync)) (id : String) : Option PendingSync :=
  (tbl.find? (fun e => e.1 == id)).map (·.2)

/-- JS Map.delete on the session table. -/
def deleteSession (tbl : List (String × PendingSync)) (id : String) :
    List (String × PendingSync) :=
  tbl.eraseP (fun e => e.1 == id)

/-- The added-list entry pushed by confirmSync for an applied add. -/
def addedEntry (change : PendingSkillChange) : SkillChange :=
  { name := change.name, version := change.version, source := change.source }

/-- The updated-list entry pushed by confirmSync for an applied update. -/
def updatedEntry (change : PendingSkillChange) : SkillChange :=
  { name := change.name, version := change.version, oldVersion := change.oldVersion,
    source := change.source }

/-- The removed-list entry pushed by confirmSync for an applied remove. -/
def removedEntry (change : PendingSkillChange) : SkillChange :=
  { name := change.name, version := change.version, source := change.source }

/-- Change-processing loop of confirmSync: a change whose name is in the
rejected list is skipped; when an approved list is given, a change not named
in it is skipped; an add or update is applied only when the stored match set
still holds the name; a remove is always applied. -/
def applyChanges (matches' : List SkillMatch)
    (approvedSkills rejectedSkills : Option (List String)) :
    List PendingSkillChange → List SkillChange × List SkillChange × List SkillChange
  | [] => ([], [], [])
  | change :: rest =>
    let restRes := applyChanges matches' approvedSkills rejectedSkills rest
    if (rejectedSkills.getD []).contains change.name then restRes
    else if (match approvedSkills with
             | some l => !(l.contains change.name)
             | none => false) then restRes
    else
      match change.action with
      | .add =>
        if (matches'.find? (fun m => m.skill.name == change.name)).isSome then
          (addedEntry change :: restRes.1, restRes.2.1, restRes.2.2)
        else restRes
      | .update =>
        if (matches'.find? (fun m => m.skill.name == change.name)).isSome then
          (restRes.1, updatedEntry change :: restRes.2.1, restRes.2.2)
        else restRes
      | .remove =>
        (restRes.1, restRes.2.1, removedEntry change :: restRes.2.2)

/-- The error message thrown by confirmSync for an unknown or expired id. -/
def confirmErrMsg (previewId : String) : String :=
  "Preview \"" ++ previewId ++ "\" not found or expired. Please run preview_sync again."

/-- SkillInstaller.confirmSync on the explicit session table: look the preview
id up (throwing the named error when absent), apply the selected pending
changes, mark untouched installed skills unchanged, and delete the session. -/
def confirmSync (agentId : String) (tbl : List (String × PendingSync)) (previewId : String)
    (approvedSkills rejectedSkills : Option (List String)) :
    Except String (SyncResult × List (String × PendingSync)) :=
  match lookupSession tbl previewId with
  | none => .error (confirmErrMsg previewId)
  | some pending =>
    let applied :=
      applyChanges pending.matches' approvedSkills rejectedSkills pending.preview.pending_changes
    let changedAll := applied.1 ++ applied.2.1 ++ applied.2.2
    let unchanged :=
      (pending.installedSkills.filter
          (fun i => !(changedAll.any (fun c => c.name == i.name)))).map
        (fun i => ({ name := i.name, version := i.version } : SkillChange))
    .ok ({ added := applied.1, updated := applied.2.1, removed := applied.2.2,
           unchanged := unchanged, agent := [agentId], paths := [pending.installPath],
           detected_stack := emptyStack }, deleteSession tbl previewId)

/-- Rational 0.9 in normal form (kernel-reducible, for concrete inputs). -/
def q09 : ℚ := ⟨9, 10, by norm_num, by norm_num⟩

/-- Rational 0.6 in normal form (kernel-reducible, for concrete inputs). -/
def q06 : ℚ := ⟨3, 5, by norm_num, by norm_num⟩

/-- Rational 0.95 in normal form (kernel-reducible, for concrete inputs). -/
def q095 : ℚ := ⟨19, 20, by norm_num, by norm_num⟩

/-- Concrete detection: react at confidence 0.9, no version. -/
def cd1 : DetectedTechnology := { id := "react", confidence := q09, source := "package.json exists" }

/-- Concrete detection: react at confidence 0.6 carrying a version. -/
def cd2 : DetectedTechnology :=
  { id := "react", version := some "18.0.0", confidence := q06, source := "README.md" }

/-- Observation: the add-changes of a pending list, as confirmSync would push
them when every change is applied. -/
def addedOf (changes : List PendingSkillChange) : List SkillChange :=
  (changes.filter (fun c => c.action == .add)).map addedEntry

/-- Observation: the update-changes of a pending list, as confirmSync would
push them when every change is applied. -/
def updatedOf (changes : List PendingSkillChange) : List SkillChange :=
  (changes.filter (fun c => c.action == .update)).map updatedEntry

/-- Observation: the remove-changes of a pending list, as confirmSync would
push them when every change is applied. -/
def removedOf (changes : List PendingSkillChange) : List SkillChange :=
  (changes.filter (fun c => c.action == .remove)).map removedEntry

/-- Concrete catalog entry A depending on B (cycle fixture). -/
def cycA : RegistrySkill :=
  { name := "A", path := "http://r/A", version := "1.0.0", description := "",
    triggers := {}, dependencies := some ["B"] }

/-- Concrete catalog entry B depending on A (cycle fixture). -/
def cycB : RegistrySkill :=
  { name := "B", path := "http://r/B", version := "1.0.0", description := "",
    triggers := {}, dependencies := some ["A"] }

/-- Concrete direct match on A (cycle fixture). -/
def cycMatchA : SkillMatch :=
  { skill := cycA, matchedBy := "detected: x", confidence := q095, source := .discovery }

/-- Concrete config excluding A and always including B. -/
def cfgExcl : MotherConfig :=
  { version := "1.0", agent := { mode := "auto", sync_both := false },
    registry := [], cache := { refresh_interval_days := 7, registry_cache := "cache" },
    detection := { enabled := true, sources := [] },
    skills := { always_include := ["B"], always_exclude := ["A"] },
    sync := { auto_remove := false, prompt_on_changes := true } }

/-- Concrete catalog entry for the typescript session fixture. -/
def tsSkill : RegistrySkill :=
  { name := "typescript", path := "http://r/ts", version := "1.0.0", description := "",
    triggers := {} }

/-- Concrete stored match of the session fixture. -/
def sessMatch : SkillMatch :=
  { skill := tsSkill, matchedBy := "detected: x", confidence := q095, source := .discovery }

/-- Concrete pending add change of the session fixture. -/
def sessChange : PendingSkillChange :=
  { name := "typescript", version := "1.0.0", source := some .discovery,
    matchedBy := some "detected: x", action := .add, reason := "Auto-discovered: detected: x" }

/-- Concrete single-session fixture. -/
def sess1 : PendingSync :=
  { preview := { pending_changes := [sessChange], manual_skills := [],
                 discovered_skills := ["typescript"], requires_confirmation := true,
                 preview_id := "s1" },
    matches' := [sessMatch], installPath := "/skills", installedSkills := [],
    timestamp := 0 }

/-- Concrete session table holding only sess1 under id s1. -/
def tbl1 : List (String × PendingSync) := [("s1", sess1)]

/-- The result confirmSync produces for tbl1 / s1 with no selection lists. -/
def c7res : SyncResult :=
  { added := [{ name := "typescript", version := "1.0.0", source := some .discovery }],
    updated := [], removed := [], unchanged := [], agent := ["claude"],
    paths := ["/skills"], detected_stack := emptyStack }

/-- Concrete catalog entry for react with its package triggers. -/
def reactSkill : RegistrySkill :=
  { name := "react", path := "http://r/react", version := "1.0.0", description := "",
    triggers := { packages := some ["react", "react-dom"] } }

/-- Concrete config always including react, excluding nothing. -/
def cfgInc : MotherConfig :=
  { version := "1.0", agent := { mode := "auto", sync_both := false },
    registry := [], cache := { refresh_interval_days := 7, registry_cache := "cache" },
    detection := { enabled := true, sources := [] },
    skills := { always_include := ["react"], always_exclude := [] },
    sync := { auto_remove := false, prompt_on_changes := true } }

/-- Concrete react detection at confidence 0.9 from package.json. -/
def detectReact : DetectedTechnology :=
  { id := "react", confidence := q09, source := "package.json (react)" }

/-- Concrete stack whose frameworks hold the react detection. -/
def stackReact : DetectedStack :=
  { languages := [], frameworks := [detectReact], databases := [],
    infrastructure := [], tools := [] }

/-- Concrete priority-1 catalog source. -/
def regA : RegistrySource := { url := "http://a", priority := 1 }

/-- Concrete priority-2 catalog source. -/
def regB : RegistrySource := { url := "http://b", priority := 2 }

/-- Concrete skill X at version 1.0.0 as declared by the priority-1 source. -/
def skXa : RegistrySkill :=
  { name := "X", path := "skills/X", version := "1.0.0", description := "",
    triggers := {} }

/-- Concrete skill X at version 2.0.0 as declared by the priority-2 source. -/
def skXb : RegistrySkill :=
  { name := "X", path := "skills/X", version := "2.0.0", description := "",
    triggers := {} }

/-- Concrete index of the priority-1 source. -/
def idxA : RegistryIndex := { version := "1.0", last_updated := "t", skills := [skXa] }

/-- Concrete index of the priority-2 source. -/
def idxB : RegistryIndex := { version := "1.0", last_updated := "t", skills := [skXb] }

/-- Concrete fetch function serving idxA for source a and idxB for source b. -/
def fetchedAB : RegistrySource → Option RegistryIndex := fun r =>
  if r.url == "http://a" then some idxA
  else if r.url == "http://b" then some idxB
  else none

/-- Concrete installed typescript at the old version 0.9.0. -/
def tsInstalled : InstalledSkill :=
  { name := "typescript", version := "0.9.0", source := "unknown",
    installed_at := "2024-01-01", path := "/skills/typescript" }

/-- Well-formedness of the resolved map: unique keys, each value named after
its key (both hold for every map the resolver builds). -/
def ResolvedInv (resolved : List (String × SkillMatch)) : Prop :=
  ((resolved.map (fun e => e.1)).Nodup) ∧ ∀ e ∈ resolved, e.2.skill.name = e.1

-- ===================================================================
-- Theorems
-- ===================================================================

/-- Reading back the category list just written. -/
theorem DetectedStack.get_set_self (s : DetectedStack) (c : Category)
    (l : List DetectedTechnology) : (s.set c l).get c = l := by
  cases c <;> rfl

/-- Writing the same category twice keeps only the second write. -/
theorem DetectedStack.set_set (s : DetectedStack) (c : Category)
    (l₁ l₂ : List DetectedTechnology) : (s.set c l₁).set c l₂ = s.set c l₂ := by
  cases c <;> rfl

/-- Every category of the empty stack is empty. -/
theorem emptyStack_get (c : Category) : emptyStack.get c = [] := by
  cases c <;> rfl

/-- Merging the same detection into a category list twice equals merging once. -/
theorem addToList_idem (l : List DetectedTechnology) (d : DetectedTechnology) :
    addToList (addToList l d) d = addToList l d := by
  induction l with
  | nil => simp [addToList, lt_irrefl]
  | cons x xs ih =>
    by_cases hid : x.id == d.id
    · by_cases hc : d.confidence > x.confidence
      · have hidA : (assignTech x d).id == d.id := by simp [assignTech]
        have hcA : ¬ d.confidence > (assignTech x d).confidence := by
          simp [assignTech]
        simp [addToList, hid, hc, hidA, hcA]
      · simp [addToList, hid, hc]
    · simp [addToList, hid, ih]

/-- C9.  Merge idempotence: adding the same detected technology to a stack
twice in succession yields the same stack as adding it once. -/
theorem addDetection_idempotent (stack : DetectedStack) (d : DetectedTechnology) :
    addDetection (addDetection stack d) d = addDetection stack d := by
  unfold addDetection
  cases h : lookupTrigger d.id with
  | none => rfl
  | some t =>
    simp [DetectedStack.get_set_self, DetectedStack.set_set, addToList_idem]

/-- C1 (amended).  Merging two same-id detections through addDetection: the
surviving entry is the incoming tuple assigned over the existing one when the
incoming confidence is strictly higher, and the unchanged existing tuple
otherwise; hence its confidence is the max of the two, and the existing
entry's missing version is backfilled from the incoming tuple only in the
strictly-higher-confidence case. -/
theorem addDetection_merge_rule (d1 d2 : DetectedTechnology) (t : TriggerDef)
    (hid : d1.id = d2.id) (ht : lookupTrigger d2.id = some t) :
    ((addDetection (addDetection emptyStack d1) d2).get t.category =
       [if d2.confidence > d1.confidence then assignTech d1 d2 else d1]) ∧
    ((addDetection (addDetection emptyStack d1) d2).get t.category).map
        (fun e => e.confidence) = [max d1.confidence d2.confidence] ∧
    (d2.confidence > d1.confidence →
      ((addDetection (addDetection emptyStack d1) d2).get t.category).map
          (fun e => e.version) = [d2.version.or d1.version]) := by
  have ht1 : lookupTrigger d1.id = some t := by rw [hid]; exact ht
  have hbeq : (d1.id == d2.id) = true := by simp [hid]
  have hmain : (addDetection (addDetection emptyStack d1) d2).get t.category =
      [if d2.confidence > d1.confidence then assignTech d1 d2 else d1] := by
    simp only [addDetection, ht1, ht, emptyStack_get, DetectedStack.get_set_self]
    simp only [addToList, hbeq]
    by_cases hc : d2.confidence > d1.confidence
    · simp [hc]
    · simp [hc]
  refine ⟨hmain, ?_, ?_⟩
  · rw [hmain]
    by_cases hc : d2.confidence > d1.confidence
    · simp [hc, assignTech, max_eq_right (le_of_lt hc)]
    · simp [hc, max_eq_left (not_lt.mp hc)]
  · intro hc
    rw [hmain]
    simp [hc, assignTech]

/-- C1 witness: the merge rule applied to the concrete react detections (0.9
without version first, then 0.6 with version). -/
theorem addDetection_merge_rule_witness :
    cd1.id = cd2.id ∧ lookupTrigger cd2.id =
      some { category := .frameworks, packages := some ["react", "react-dom"] } ∧
    ((addDetection (addDetection emptyStack cd1) cd2).get Category.frameworks =
       [if cd2.confidence > cd1.confidence then assignTech cd1 cd2 else cd1]) :=
  ⟨rfl, rfl,
    (addDetection_merge_rule cd1 cd2
      { category := .frameworks, packages := some ["react", "react-dom"] } rfl rfl).1⟩

/-- C1 counterexample: the react entry detected first at confidence 0.9
without a version, then at confidence 0.6 with version 18.0.0, ends with no
version — the lower-confidence incoming tuple is dropped entirely, its
version is not backfilled, contradicting the version-union clause of the
claim. -/
theorem addDetection_no_backfill_counterexample :
    cd2.confidence < cd1.confidence ∧ cd2.version = some "18.0.0" ∧
    ((addDetection (addDetection emptyStack cd1) cd2).frameworks).map
        (fun e => e.version) = [none] :=
  ⟨by decide, rfl, rfl⟩

/-- C5.  Exclusion survives dependency resolution: a name listed in
always_exclude never appears in the final resolved match set of a preview,
because previewSync filters the exclusion list again after resolving
dependencies. -/
theorem alwaysExclude_not_in_final (availableSkills : List RegistrySkill)
    (config : MotherConfig) (stack : DetectedStack) (installed : List InstalledSkill)
    (pid name : String) (h : name ∈ config.skills.always_exclude) :
    name ∉ ((previewSyncPure availableSkills config stack installed pid).2).map
      (fun m => m.skill.name) := by
  intro hmem
  simp only [previewSyncPure] at hmem
  obtain ⟨m, hm, hname⟩ := List.mem_map.mp hmem
  have hfil := List.mem_filter.mp hm
  rw [hname] at hfil
  have hnot := hfil.2
  simp at hnot
  exact hnot h

/-- C5 witness: with A excluded, B included and B depending on A, the final
resolved set of the preview does not contain A. -/
theorem alwaysExclude_not_in_final_witness :
    "A" ∈ cfgExcl.skills.always_exclude ∧
    "A" ∉ ((previewSyncPure [cycA, cycB] cfgExcl emptyStack [] "p1").2).map
      (fun m => m.skill.name) :=
  ⟨by decide, alwaysExclude_not_in_final [cycA, cycB] cfgExcl emptyStack [] "p1" "A"
    (by decide)⟩

/-- Looking a key up after deleting it fails, when the table keys are unique
(as they are for a JS Map). -/
theorem lookupSession_deleteSession (tbl : List (String × PendingSync)) (id : String)
    (hnd : (tbl.map (fun e => e.1)).Nodup) :
    lookupSession (deleteSession tbl id) id = none := by
  induction tbl with
  | nil => rfl
  | cons e rest ih =>
    simp only [List.map_cons, List.nodup_cons] at hnd
    by_cases h : e.1 == id
    · have hid : e.1 = id := by simpa using h
      simp only [deleteSession, List.eraseP_cons, h, cond_true]
      rw [lookupSession, List.find?_eq_none.mpr]
      · rfl
      · intro x hx hbx
        have : x.1 = id := by simpa using hbx
        exact hnd.1 (by rw [hid] at hnd ⊢; exact this ▸ List.mem_map_of_mem (fun e => e.1) hx)
    · simp only [deleteSession, List.eraseP_cons, h, cond_false]
      have hrec := ih hnd.2
      simp only [lookupSession, List.find?_cons, h] at hrec ⊢
      simpa [deleteSession] using hrec

/-- Unknown session ids make confirmSync fail with the named error. -/
theorem confirmSync_unknown_id (agentId : String) (tbl : List (String × PendingSync))
    (id : String) (ap rj : Option (List String)) (h : lookupSession tbl id = none) :
    confirmSync agentId tbl id ap rj = .error (confirmErrMsg id) := by
  simp [confirmSync, h]

/-- C7.  Sessions are single-use: a successful confirmSync deletes the session,
so confirming the same preview id again fails with the named not-found error;
the same error is raised for any id absent from the session table. -/
theorem confirmSync_single_use (agentId : String) (tbl : List (String × PendingSync))
    (previewId : String) (ap rj ap' rj' : Option (List String))
    (hnd : (tbl.map (fun e => e.1)).Nodup) :
    (∀ res tbl', confirmSync agentId tbl previewId ap rj = .ok (res, tbl') →
      confirmSync agentId tbl' previewId ap' rj' = .error (confirmErrMsg previewId)) ∧
    (∀ id₀, lookupSession tbl id₀ = none →
      confirmSync agentId tbl id₀ ap rj = .error (confirmErrMsg id₀)) := by
  constructor
  · intro res tbl' hok
    cases hl : lookupSession tbl previewId with
    | none => simp [confirmSync, hl] at hok
    | some p =>
      simp only [confirmSync, hl, Except.ok.injEq, Prod.mk.injEq] at hok
      rw [← hok.2]
      exact confirmSync_unknown_id agentId _ previewId ap' rj'
        (lookupSession_deleteSession tbl previewId hnd)
  · intro id₀ h₀
    exact confirmSync_unknown_id agentId tbl id₀ ap rj h₀

/-- C7 witness: confirming s1 against tbl1 succeeds and leaves the empty
table, after which the same id (and a never-issued id) fail with the named
error. -/
theorem confirmSync_single_use_witness :
    confirmSync "claude" [] "s1" none none = .error (confirmErrMsg "s1") ∧
    confirmSync "claude" tbl1 "bogus" none none = .error (confirmErrMsg "bogus") :=
  ⟨(confirmSync_single_use "claude" tbl1 "s1" none none none none (by decide)).1
      c7res [] (by rfl),
   (confirmSync_single_use "claude" tbl1 "s1" none none none none (by decide)).2
      "bogus" (by rfl)⟩

/-- With an explicit empty approved list (and no rejected list) every pending
change is skipped. -/
theorem applyChanges_empty_approved (ml : List SkillMatch)
    (changes : List PendingSkillChange) :
    applyChanges ml (some []) none changes = ([], [], []) := by
  induction changes with
  | nil => rfl
  | cons c rest ih => simp [applyChanges, ih]

/-- C10.  An explicit empty approved list applies none of the session's
pending changes — added, updated and removed all come back empty — yet the
session is still deleted, so a subsequent confirmSync with the same preview
id fails with the named error. -/
theorem confirmSync_empty_approved (agentId : String) (tbl : List (String × PendingSync))
    (previewId : String) (p : PendingSync)
    (hnd : (tbl.map (fun e => e.1)).Nodup)
    (hp : lookupSession tbl previewId = some p) :
    ∃ res tbl', confirmSync agentId tbl previewId (some []) none = .ok (res, tbl') ∧
      res.added = [] ∧ res.updated = [] ∧ res.removed = [] ∧
      lookupSession tbl' previewId = none ∧
      confirmSync agentId tbl' previewId none none = .error (confirmErrMsg previewId) := by
  have happly := applyChanges_empty_approved p.matches' p.preview.pending_changes
  have hdel := lookupSession_deleteSession tbl previewId hnd
  obtain ⟨res, tbl', hok⟩ : ∃ res tbl',
      confirmSync agentId tbl previewId (some []) none = .ok (res, tbl') :=
    ⟨_, _, by simp only [confirmSync, hp]; rfl⟩
  have hinj := hok
  simp only [confirmSync, hp, Except.ok.injEq, Prod.mk.injEq] at hinj
  obtain ⟨hres, htbl⟩ := hinj
  refine ⟨res, tbl', hok, ?_, ?_, ?_, ?_, ?_⟩
  · rw [← hres]; simp [happly]
  · rw [← hres]; simp [happly]
  · rw [← hres]; simp [happly]
  · rw [← htbl]; exact hdel
  · rw [← htbl]; exact confirmSync_unknown_id agentId _ previewId none none hdel

/-- C10 witness: tbl1 holds a pending add for typescript; confirming with an
empty approved list applies nothing and still consumes the session. -/
theorem confirmSync_empty_approved_witness :
    (tbl1.map (fun e => e.1)).Nodup ∧ lookupSession tbl1 "s1" = some sess1 ∧
    (∃ res tbl', confirmSync "claude" tbl1 "s1" (some []) none = .ok (res, tbl') ∧
      res.added = [] ∧ res.updated = [] ∧ res.removed = [] ∧
      lookupSession tbl' "s1" = none ∧
      confirmSync "claude" tbl' "s1" none none = .error (confirmErrMsg "s1")) :=
  ⟨by decide, by rfl,
    confirmSync_empty_approved "claude" tbl1 "s1" sess1 (by decide) (by rfl)⟩

/-- With neither selection list, every change is applied whenever adds and
updates can still find their match in the stored match set: the result's
three lists are exactly the pending changes of each action, in order. -/
theorem applyChanges_default (ml : List SkillMatch) (changes : List PendingSkillChange)
    (wf : ∀ c ∈ changes, c.action ≠ .remove → ∃ m ∈ ml, m.skill.name = c.name) :
    applyChanges ml none none changes =
      (addedOf changes, updatedOf changes, removedOf changes) := by
  induction changes with
  | nil => rfl
  | cons c rest ih =>
    have hrest := ih (fun c' h' hr => wf c' (List.mem_cons_of_mem c h') hr)
    have hfind : c.action ≠ .remove →
        (ml.find? (fun m => m.skill.name == c.name)).isSome = true := by
      intro hr
      obtain ⟨m, hm, hname⟩ := wf c (List.mem_cons_self c rest) hr
      cases hf : ml.find? (fun m => m.skill.name == c.name) with
      | some _ => rfl
      | none =>
        exact absurd (by simpa using hname)
          (by simpa using List.find?_eq_none.mp hf m hm)
    cases hact : c.action with
    | add =>
      have hs := hfind (by simp [hact])
      cases hf : ml.find? (fun m => m.skill.name == c.name) with
      | none => rw [hf] at hs; simp at hs
      | some _ =>
        simp [applyChanges, hact, hf, hrest, addedOf, updatedOf, removedOf,
          List.filter_cons]
    | update =>
      have hs := hfind (by simp [hact])
      cases hf : ml.find? (fun m => m.skill.name == c.name) with
      | none => rw [hf] at hs; simp at hs
      | some _ =>
        simp [applyChanges, hact, hf, hrest, addedOf, updatedOf, removedOf,
          List.filter_cons]
    | remove =>
      simp [applyChanges, hact, hrest, addedOf, updatedOf, removedOf, List.filter_cons]

/-- Every entry of the three result lists of the change-processing loop has a
name outside the rejected list. -/
theorem applyChanges_rejected_names (ml : List SkillMatch) (ap : Option (List String))
    (rjl : List String) (changes : List PendingSkillChange) :
    ∀ c', (c' ∈ (applyChanges ml ap (some rjl) changes).1 ∨
           c' ∈ (applyChanges ml ap (some rjl) changes).2.1 ∨
           c' ∈ (applyChanges ml ap (some rjl) changes).2.2) →
      rjl.contains c'.name = false := by
  induction changes with
  | nil => intro c' h; simp [applyChanges] at h
  | cons c rest ih =>
    intro c' hmem
    by_cases hrj : rjl.contains c.name
    · have hstep : applyChanges ml ap (some rjl) (c :: rest) =
          applyChanges ml ap (some rjl) rest := by
        simp only [applyChanges, Option.getD_some]
        rw [if_pos hrj]
      rw [hstep] at hmem
      exact ih c' hmem
    · have hrj' : rjl.contains c.name = false := by simpa using hrj
      have happlied : ∀ e : SkillChange, e.name = c.name →
          (c' = e ∨ (c' ∈ (applyChanges ml ap (some rjl) rest).1 ∨
            c' ∈ (applyChanges ml ap (some rjl) rest).2.1 ∨
            c' ∈ (applyChanges ml ap (some rjl) rest).2.2)) →
          rjl.contains c'.name = false := by
        intro e he hcase
        rcases hcase with h | h
        · rw [h, he]; exact hrj'
        · exact ih c' h
      have hbyAction : (applyChanges ml ap (some rjl) (c :: rest) =
            (match c.action with
             | .add =>
               if (ml.find? (fun m => m.skill.name == c.name)).isSome then
                 (addedEntry c :: (applyChanges ml ap (some rjl) rest).1,
                  (applyChanges ml ap (some rjl) rest).2.1,
                  (applyChanges ml ap (some rjl) rest).2.2)
               else applyChanges ml ap (some rjl) rest
             | .update =>
               if (ml.find? (fun m => m.skill.name == c.name)).isSome then
                 ((applyChanges ml ap (some rjl) rest).1,
                  updatedEntry c :: (applyChanges ml ap (some rjl) rest).2.1,
                  (applyChanges ml ap (some rjl) rest).2.2)
               else applyChanges ml ap (some rjl) rest
             | .remove =>
               ((applyChanges ml ap (some rjl) rest).1,
                (applyChanges ml ap (some rjl) rest).2.1,
                removedEntry c :: (applyChanges ml ap (some rjl) rest).2.2))) ∨
          applyChanges ml ap (some rjl) (c :: rest) =
            applyChanges ml ap (some rjl) rest := by
        cases ap with
        | none =>
          left
          simp only [applyChanges, Option.getD_some]
          rw [if_neg hrj, if_neg (by decide)]
        | some l =>
          by_cases hl : l.contains c.name
          · left
            simp only [applyChanges, Option.getD_some]
            rw [if_neg hrj, if_neg (by rw [hl]; decide)]
          · right
            have hl' : l.contains c.name = false := by simpa using hl
            simp only [applyChanges, Option.getD_some]
            rw [if_neg hrj, if_pos (by rw [hl']; decide)]
      rcases hbyAction with hstep | hstep
      · rw [hstep] at hmem
        cases hact : c.action with
        | add =>
          rw [hact] at hmem
          cases hf : ml.find? (fun m => m.skill.name == c.name) with
          | none =>
            rw [hf] at hmem
            simp only [Option.isSome_none, Bool.false_eq_true, if_false] at hmem
            exact ih c' hmem
          | some _ =>
            rw [hf] at hmem
            simp only [Option.isSome_some, if_true] at hmem
            rcases hmem with h | h | h
            · rcases List.mem_cons.mp h with he | hr
              · exact happlied (addedEntry c) rfl (Or.inl he)
              · exact ih c' (Or.inl hr)
            · exact ih c' (Or.inr (Or.inl h))
            · exact ih c' (Or.inr (Or.inr h))
        | update =>
          rw [hact] at hmem
          cases hf : ml.find? (fun m => m.skill.name == c.name) with
          | none =>
            rw [hf] at hmem
            simp only [Option.isSome_none, Bool.false_eq_true, if_false] at hmem
            exact ih c' hmem
          | some _ =>
            rw [hf] at hmem
            simp only [Option.isSome_some, if_true] at hmem
            rcases hmem with h | h | h
            · exact ih c' (Or.inl h)
            · rcases List.mem_cons.mp h with he | hr
              · exact happlied (updatedEntry c) rfl (Or.inl he)
              · exact ih c' (Or.inr (Or.inl hr))
            · exact ih c' (Or.inr (Or.inr h))
        | remove =>
          rw [hact] at hmem
          rcases hmem with h | h | h
          · exact ih c' (Or.inl h)
          · exact ih c' (Or.inr (Or.inl h))
          · rcases List.mem_cons.mp h with he | hr
            · exact happlied (removedEntry c) rfl (Or.inl he)
            · exact ih c' (Or.inr (Or.inr hr))
      · rw [hstep] at hmem
        exact ih c' hmem

/-- C8.  confirmSync selection semantics: with neither approved_skills nor
rejected_skills, every pending change of the session is applied (adds,
updates and removes come back exactly as listed, provided the stored match
set still covers the non-remove changes); and a name present in both lists
is never applied — reject takes precedence over approve. -/
theorem confirmSync_selection (agentId : String) (tbl : List (String × PendingSync))
    (previewId : String) (p : PendingSync)
    (hp : lookupSession tbl previewId = some p)
    (wf : ∀ c ∈ p.preview.pending_changes, c.action ≠ .remove →
      ∃ m ∈ p.matches', m.skill.name = c.name) :
    (∃ res tbl', confirmSync agentId tbl previewId none none = .ok (res, tbl') ∧
      res.added = addedOf p.preview.pending_changes ∧
      res.updated = updatedOf p.preview.pending_changes ∧
      res.removed = removedOf p.preview.pending_changes) ∧
    (∀ ap rj n, n ∈ ap → n ∈ rj →
      ∀ res tbl', confirmSync agentId tbl previewId (some ap) (some rj) = .ok (res, tbl') →
        n ∉ ((res.added ++ res.updated) ++ res.removed).map (fun c => c.name)) := by
  constructor
  · have happly := applyChanges_default p.matches' p.preview.pending_changes wf
    obtain ⟨res, tbl', hok⟩ : ∃ res tbl',
        confirmSync agentId tbl previewId none none = .ok (res, tbl') :=
      ⟨_, _, by simp only [confirmSync, hp]; rfl⟩
    have hinj := hok
    simp only [confirmSync, hp, Except.ok.injEq, Prod.mk.injEq] at hinj
    obtain ⟨hres, htbl⟩ := hinj
    refine ⟨res, tbl', hok, ?_, ?_, ?_⟩
    · rw [← hres]; simp [happly]
    · rw [← hres]; simp [happly]
    · rw [← hres]; simp [happly]
  · intro ap rj n hap hrj res tbl' hok
    simp only [confirmSync, hp, Except.ok.injEq, Prod.mk.injEq] at hok
    have hres := hok.1
    intro hmem
    rw [← hres] at hmem
    simp only [List.map_append, List.mem_append, List.mem_map] at hmem
    have hcontra : ∃ c', (c' ∈ (applyChanges p.matches' (some ap) (some rj)
          p.preview.pending_changes).1 ∨
        c' ∈ (applyChanges p.matches' (some ap) (some rj) p.preview.pending_changes).2.1 ∨
        c' ∈ (applyChanges p.matches' (some ap) (some rj) p.preview.pending_changes).2.2) ∧
        c'.name = n := by
      rcases hmem with (⟨c', hc', hn'⟩ | ⟨c', hc', hn'⟩) | ⟨c', hc', hn'⟩
      · exact ⟨c', Or.inl hc', hn'⟩
      · exact ⟨c', Or.inr (Or.inl hc'), hn'⟩
      · exact ⟨c', Or.inr (Or.inr hc'), hn'⟩
    obtain ⟨c', hc', hn'⟩ := hcontra
    have hfalse := applyChanges_rejected_names p.matches' (some ap) rj
      p.preview.pending_changes c' hc'
    rw [hn'] at hfalse
    simp at hfalse
    exact hfalse hrj

/-- C8 witness: with neither list, the typescript add of sess1 is applied;
with typescript in both lists it is not applied. -/
theorem confirmSync_selection_witness :
    lookupSession tbl1 "s1" = some sess1 ∧
    (∃ res tbl', confirmSync "claude" tbl1 "s1" none none = .ok (res, tbl') ∧
      res.added = addedOf sess1.preview.pending_changes ∧
      res.updated = updatedOf sess1.preview.pending_changes ∧
      res.removed = removedOf sess1.preview.pending_changes) :=
  ⟨by rfl,
    (confirmSync_selection "claude" tbl1 "s1" sess1 (by rfl) (by decide)).1⟩

/-- A change produced for a match is named after the match's skill. -/
theorem changeForMatch_name (installed : List InstalledSkill) (m : SkillMatch)
    (c : PendingSkillChange) (h : changeForMatch installed m = some c) :
    c.name = m.skill.name := by
  cases hf : installed.find? (fun s => s.name == m.skill.name) with
  | none => simp only [changeForMatch, hf] at h; cases h; rfl
  | some existing =>
    simp only [changeForMatch, hf] at h
    by_cases hv : (existing.version == m.skill.version) = true
    · rw [if_pos hv] at h; cases h
    · rw [if_neg hv] at h; cases h; rfl

/-- When no match carries name n, the per-match changes contain no change
named n. -/
theorem filterMap_changeFor_none (installed : List InstalledSkill)
    (ml : List SkillMatch) (n : String) (h : ∀ m ∈ ml, m.skill.name ≠ n) :
    (ml.filterMap (changeForMatch installed)).filter (fun c => c.name == n) = [] := by
  refine List.filter_eq_nil_iff.mpr ?_
  intro c hc
  obtain ⟨m, hm, hfm⟩ := List.mem_filterMap.mp hc
  have := changeForMatch_name installed m c hfm
  simp [this, h m hm]

/-- With unique match names, the per-match changes named after a given match
are exactly that match's own contribution. -/
theorem filterMap_changeFor_unique (installed : List InstalledSkill)
    (ml : List SkillMatch) (m : SkillMatch)
    (hnd : (ml.map (fun m => m.skill.name)).Nodup) (hm : m ∈ ml) :
    (ml.filterMap (changeForMatch installed)).filter (fun c => c.name == m.skill.name)
      = (changeForMatch installed m).toList := by
  induction ml with
  | nil => cases hm
  | cons m' rest ih =>
    simp only [List.map_cons, List.nodup_cons] at hnd
    rcases List.mem_cons.mp hm with he | hr
    · subst he
      have hrest : (rest.filterMap (changeForMatch installed)).filter
          (fun c => c.name == m.skill.name) = [] :=
        filterMap_changeFor_none installed rest m.skill.name
          (fun m'' hm'' heq => hnd.1 (heq ▸ List.mem_map_of_mem (fun m => m.skill.name) hm''))
      cases hf : changeForMatch installed m with
      | none => simp [List.filterMap_cons, hf, hrest]
      | some c =>
        have hname := changeForMatch_name installed m c hf
        simp [List.filterMap_cons, hf, List.filter_cons, hname, hrest]
    · have hne : m'.skill.name ≠ m.skill.name := by
        intro heq
        exact hnd.1 (heq ▸ List.mem_map_of_mem (fun m => m.skill.name) hr)
      have htail := ih hnd.2 hr
      cases hf : changeForMatch installed m' with
      | none => simpa [List.filterMap_cons, hf] using htail
      | some c =>
        have hname := changeForMatch_name installed m' c hf
        rw [List.filterMap_cons, hf]
        rw [List.filter_cons_of_neg (by simp [hname, hne])]
        exact htail

/-- With auto_remove enabled, removeChanges is the mapped filter of the
installed list. -/
theorem removeChanges_true (ml : List SkillMatch) (installed : List InstalledSkill) :
    removeChanges ml installed true =
      (installed.filter
        (fun i => !(ml.any (fun m => m.skill.name == i.name)))).map removeChangeOf := rfl

/-- With auto_remove disabled, removeChanges is empty. -/
theorem removeChanges_false (ml : List SkillMatch) (installed : List InstalledSkill) :
    removeChanges ml installed false = [] := rfl

/-- No remove change is emitted for a name that some match still requires. -/
theorem removeChanges_matched (ml : List SkillMatch) (installed : List InstalledSkill)
    (ar : Bool) (m : SkillMatch) (hm : m ∈ ml) :
    (removeChanges ml installed ar).filter (fun c => c.name == m.skill.name) = [] := by
  refine List.filter_eq_nil_iff.mpr ?_
  intro c hc
  cases ar with
  | false => rw [removeChanges_false] at hc; cases hc
  | true =>
    rw [removeChanges_true] at hc
    obtain ⟨i, hi, hci⟩ := List.mem_map.mp hc
    have hfil := List.mem_filter.mp hi
    have hnone : ∀ m'' ∈ ml, ¬(m''.skill.name == i.name) = true := by
      have := hfil.2
      simpa [List.any_eq_true] using this
    have : ¬(m.skill.name == i.name) = true := hnone m hm
    rw [← hci]
    simpa [removeChangeOf] using fun he => this (by simp [he])

/-- No remove change is emitted for a name that is not installed. -/
theorem removeChanges_not_installed (ml : List SkillMatch) (installed : List InstalledSkill)
    (ar : Bool) (n : String) (h : ∀ i ∈ installed, i.name ≠ n) :
    (removeChanges ml installed ar).filter (fun c => c.name == n) = [] := by
  refine List.filter_eq_nil_iff.mpr ?_
  intro c hc
  cases ar with
  | false => rw [removeChanges_false] at hc; cases hc
  | true =>
    rw [removeChanges_true] at hc
    obtain ⟨i, hi, hci⟩ := List.mem_map.mp hc
    have hmem := (List.mem_filter.mp hi).1
    rw [← hci]
    simpa [removeChangeOf] using h i hmem

/-- With unique installed names and auto-remove enabled, an installed skill no
match requires contributes exactly its own remove change. -/
theorem removeChanges_remove (ml : List SkillMatch) (installed : List InstalledSkill)
    (i : InstalledSkill) (hnd : (installed.map (fun i => i.name)).Nodup)
    (hi : i ∈ installed) (h : ∀ m ∈ ml, m.skill.name ≠ i.name) :
    (removeChanges ml installed true).filter (fun c => c.name == i.name)
      = [removeChangeOf i] := by
  induction installed with
  | nil => cases hi
  | cons j rest ih =>
    simp only [List.map_cons, List.nodup_cons] at hnd
    rcases List.mem_cons.mp hi with he | hr
    · subst he
      have hany : (ml.any (fun m => m.skill.name == i.name)) = false := by
        simp only [List.any_eq_false]
        intro m hm
        simp [h m hm]
      have hrest : (removeChanges ml rest true).filter (fun c => c.name == i.name) = [] :=
        removeChanges_not_installed ml rest true i.name
          (fun i'' hi'' heq => hnd.1 (heq ▸ List.mem_map_of_mem (fun i => i.name) hi''))
      rw [removeChanges_true] at hrest ⊢
      simp [List.filter_cons, hany, removeChangeOf, hrest]
    · have hne : j.name ≠ i.name := by
        intro heq
        exact hnd.1 (heq ▸ List.mem_map_of_mem (fun i => i.name) hr)
      have htail := ih hnd.2 hr
      rw [removeChanges_true] at htail ⊢
      by_cases hj : (ml.any (fun m => m.skill.name == j.name)) = true
      · simp [List.filter_cons, hj, htail]
      · simp only [Bool.not_eq_true] at hj
        simp [List.filter_cons, hj, removeChangeOf, hne, htail]

/-- With unique installed names, find-by-name returns the member itself. -/
theorem find_installed_self (installed : List InstalledSkill) (i : InstalledSkill)
    (hnd : (installed.map (fun i => i.name)).Nodup) (hi : i ∈ installed) :
    installed.find? (fun s => s.name == i.name) = some i := by
  induction installed with
  | nil => cases hi
  | cons j rest ih =>
    simp only [List.map_cons, List.nodup_cons] at hnd
    rcases List.mem_cons.mp hi with he | hr
    · subst he
      simp [List.find?_cons]
    · have hne : j.name ≠ i.name := by
        intro heq
        exact hnd.1 (heq ▸ List.mem_map_of_mem (fun i => i.name) hr)
      have hbeq : (j.name == i.name) = false := by simp [hne]
      simp only [List.find?_cons, hbeq, cond_false]
      exact ih hnd.2 hr

/-- C6.  Diff computation rules of previewSync, for any resolved match set and
installed list with unique names: equal versions produce no change named after
the skill; a version mismatch produces exactly the one update change carrying
the installed version as oldVersion and the catalog version; a match without
an installed counterpart produces exactly one add; an installed skill no match
requires produces exactly one remove when auto_remove is enabled and nothing
otherwise. -/
theorem buildPendingChanges_diff_rules (ml : List SkillMatch)
    (installed : List InstalledSkill) (ar : Bool)
    (hm : (ml.map (fun m => m.skill.name)).Nodup)
    (hi : (installed.map (fun i => i.name)).Nodup) :
    (∀ m ∈ ml, ∀ i ∈ installed, i.name = m.skill.name → i.version = m.skill.version →
      (buildPendingChanges ml installed ar).filter (fun c => c.name == m.skill.name) = []) ∧
    (∀ m ∈ ml, ∀ i ∈ installed, i.name = m.skill.name → i.version ≠ m.skill.version →
      (buildPendingChanges ml installed ar).filter (fun c => c.name == m.skill.name)
        = [updateChangeOf m i]) ∧
    (∀ m ∈ ml, (∀ i ∈ installed, i.name ≠ m.skill.name) →
      (buildPendingChanges ml installed ar).filter (fun c => c.name == m.skill.name)
        = [addChangeOf m]) ∧
    (∀ i ∈ installed, (∀ m ∈ ml, m.skill.name ≠ i.name) →
      (buildPendingChanges ml installed ar).filter (fun c => c.name == i.name)
        = if ar then [removeChangeOf i] else []) := by
  refine ⟨?_, ?_, ?_, ?_⟩
  · intro m hmm i hii hname hver
    have hfind : installed.find? (fun s => s.name == m.skill.name) = some i := by
      rw [← hname]; exact find_installed_self installed i hi hii
    have hch : changeForMatch installed m = none := by
      simp only [changeForMatch, hfind]
      rw [if_pos (by simp [hver])]
    unfold buildPendingChanges
    rw [List.filter_append, filterMap_changeFor_unique installed ml m hm hmm, hch,
      removeChanges_matched ml installed ar m hmm]
    rfl
  · intro m hmm i hii hname hver
    have hfind : installed.find? (fun s => s.name == m.skill.name) = some i := by
      rw [← hname]; exact find_installed_self installed i hi hii
    have hch : changeForMatch installed m = some (updateChangeOf m i) := by
      simp only [changeForMatch, hfind]
      rw [if_neg (by simp [hver])]
    unfold buildPendingChanges
    rw [List.filter_append, filterMap_changeFor_unique installed ml m hm hmm, hch,
      removeChanges_matched ml installed ar m hmm]
    rfl
  · intro m hmm hno
    have hfind : installed.find? (fun s => s.name == m.skill.name) = none :=
      List.find?_eq_none.mpr (fun i hii => by simp [hno i hii])
    have hch : changeForMatch installed m = some (addChangeOf m) := by
      simp only [changeForMatch, hfind]
    unfold buildPendingChanges
    rw [List.filter_append, filterMap_changeFor_unique installed ml m hm hmm, hch,
      removeChanges_not_installed ml installed ar m.skill.name
        (fun i hii heq => hno i hii heq)]
    rfl
  · intro i hii hno
    unfold buildPendingChanges
    rw [List.filter_append,
      filterMap_changeFor_none installed ml i.name (fun m hm => hno m hm)]
    cases ar with
    | true =>
      rw [removeChanges_remove ml installed i hi hii hno]
      rfl
    | false =>
      rw [removeChanges_false]
      rfl

/-- C6 witness: installed typescript 0.9.0 against a matched catalog
typescript 1.0.0 yields exactly one update change with oldVersion 0.9.0. -/
theorem buildPendingChanges_diff_rules_witness :
    (([sessMatch].map (fun m => m.skill.name)).Nodup) ∧
    (([tsInstalled].map (fun i => i.name)).Nodup) ∧
    tsInstalled.name = sessMatch.skill.name ∧
    tsInstalled.version ≠ sessMatch.skill.version ∧
    (buildPendingChanges [sessMatch] [tsInstalled] false).filter
        (fun c => c.name == sessMatch.skill.name) = [updateChangeOf sessMatch tsInstalled] :=
  ⟨by decide, by decide, rfl, by decide,
    (buildPendingChanges_diff_rules [sessMatch] [tsInstalled] false (by decide)
        (by decide)).2.1 sessMatch (by decide) tsInstalled (by decide) rfl (by decide)⟩



/-- Filter length is monotone under pointwise implication of predicates. -/
theorem length_filter_le_of_imp {α : Type} (l : List α) (p q : α → Bool)
    (h : ∀ x, q x = true → p x = true) :
    (l.filter q).length ≤ (l.filter p).length := by
  induction l with
  | nil => simp
  | cons a t ih =>
    by_cases hq : q a = true
    · rw [List.filter_cons_of_pos hq, List.filter_cons_of_pos (h a hq)]
      simpa using ih
    · rw [List.filter_cons_of_neg (by simpa using hq)]
      by_cases hp : p a = true
      · rw [List.filter_cons_of_pos hp]
        exact Nat.le_succ_of_le ih
      · rw [List.filter_cons_of_neg (by simpa using hp)]
        exact ih

/-- Filter length drops strictly when some list element satisfies the weaker
predicate but not the stronger one. -/
theorem length_filter_lt_of_witness {α : Type} (l : List α) (p q : α → Bool) (a : α)
    (h : ∀ x, q x = true → p x = true) (ha : a ∈ l) (hpa : p a = true) (hqa : q a = false) :
    (l.filter q).length < (l.filter p).length := by
  induction l with
  | nil => cases ha
  | cons b t ih =>
    rcases List.mem_cons.mp ha with he | hm
    · subst he
      rw [List.filter_cons_of_pos hpa, List.filter_cons_of_neg (by simp [hqa])]
      exact Nat.lt_succ_of_le (length_filter_le_of_imp t p q h)
    · by_cases hq : q b = true
      · rw [List.filter_cons_of_pos hq, List.filter_cons_of_pos (h b hq)]
        exact Nat.succ_lt_succ (ih hm)
      · rw [List.filter_cons_of_neg (by simpa using hq)]
        by_cases hp : p b = true
        · rw [List.filter_cons_of_pos hp]
          exact Nat.lt_succ_of_lt (ih hm)
        · rw [List.filter_cons_of_neg (by simpa using hp)]
          exact ih hm

/-- hasKey distributes over append as a disjunction. -/
theorem hasKey_append (l₁ l₂ : List (String × SkillMatch)) (k : String) :
    hasKey (l₁ ++ l₂) k = (hasKey l₁ k || hasKey l₂ k) := by
  simp [hasKey, List.any_append]

/-- hasKey is membership of the key list. -/
theorem hasKey_eq_false_iff (l : List (String × SkillMatch)) (k : String) :
    hasKey l k = false ↔ k ∉ l.map (fun e => e.1) := by
  simp only [hasKey, List.any_eq_false, List.mem_map, beq_iff_eq]
  constructor
  · rintro h ⟨e, he, hk⟩
    exact h e he hk
  · intro h e he hk
    exact h ⟨e, he, hk⟩

/-- Appending a newly resolved catalog name strictly shrinks the unresolved
count. -/
theorem unresolvedCount_append_lt (availableSkills : List RegistrySkill)
    (resolved : List (String × SkillMatch)) (dep : String) (m : SkillMatch)
    (hmem : dep ∈ availableSkills.map (fun s => s.name))
    (hk : hasKey resolved dep = false) :
    unresolvedCount availableSkills (resolved ++ [(dep, m)]) + 1
      ≤ unresolvedCount availableSkills resolved := by
  have hqa : (!(hasKey (resolved ++ [(dep, m)]) dep)) = false := by
    rw [hasKey_append]
    simp [hasKey]
  have himp : ∀ n, (!(hasKey (resolved ++ [(dep, m)]) n)) = true →
      (!(hasKey resolved n)) = true := by
    intro n hn
    rw [hasKey_append] at hn
    simp only [Bool.not_eq_true', Bool.or_eq_false_iff] at hn
    simp [hn.1]
  have hlt := length_filter_lt_of_witness ((availableSkills.map (fun s => s.name)).dedup)
    (fun n => !(hasKey resolved n)) (fun n => !(hasKey (resolved ++ [(dep, m)]) n)) dep
    himp (List.mem_dedup.mpr hmem) (by simp [hk]) hqa
  exact hlt

/-- A set entry is present after the set. -/
theorem setEntry_mem_self (l : List (String × SkillMatch)) (k : String) (v : SkillMatch) :
    (k, v) ∈ setEntry l k v := by
  induction l with
  | nil => simp [setEntry]
  | cons e t ih =>
    obtain ⟨k', v'⟩ := e
    by_cases h : (k' == k) = true
    · have : k' = k := by simpa using h
      simp [setEntry, h, this]
    · simp only [setEntry, h]
      rw [if_neg Bool.false_ne_true]
      exact List.mem_cons_of_mem _ ih

/-- Entries under a different key survive a set. -/
theorem setEntry_mem_of_ne (l : List (String × SkillMatch)) (k : String) (v : SkillMatch)
    (k' : String) (v' : SkillMatch) (h : (k', v') ∈ l) (hne : k' ≠ k) :
    (k', v') ∈ setEntry l k v := by
  induction l with
  | nil => cases h
  | cons e t ih =>
    obtain ⟨k₀, v₀⟩ := e
    rcases List.mem_cons.mp h with he | hm
    · by_cases hk : (k₀ == k) = true
      · rw [setEntry, if_pos hk]
        cases he
        exact absurd (by simpa using hk) hne
      · rw [setEntry, if_neg hk]
        exact he ▸ List.mem_cons_self _ _
    · by_cases hk : (k₀ == k) = true
      · rw [setEntry, if_pos hk]
        exact List.mem_cons_of_mem _ hm
      · rw [setEntry, if_neg hk]
        exact List.mem_cons_of_mem _ (ih hm)

/-- Setting an existing key keeps the key list. -/
theorem setEntry_keys_of_has (l : List (String × SkillMatch)) (k : String) (v : SkillMatch)
    (h : hasKey l k = true) :
    (setEntry l k v).map (fun e => e.1) = l.map (fun e => e.1) := by
  induction l with
  | nil => simp [hasKey] at h
  | cons e t ih =>
    obtain ⟨k₀, v₀⟩ := e
    by_cases hk : (k₀ == k) = true
    · rw [setEntry, if_pos hk]
      simp
    · rw [setEntry, if_neg hk]
      have ht : hasKey t k = true := by
        simp only [hasKey, List.any_cons] at h
        rcases Bool.or_eq_true_iff.mp h with h' | h'
        · exact absurd h' hk
        · exact h'
      simp [ih ht]

/-- Setting a fresh key appends it to the key list. -/
theorem setEntry_keys_of_not (l : List (String × SkillMatch)) (k : String) (v : SkillMatch)
    (h : hasKey l k = false) :
    (setEntry l k v).map (fun e => e.1) = l.map (fun e => e.1) ++ [k] := by
  induction l with
  | nil => simp [setEntry]
  | cons e t ih =>
    obtain ⟨k₀, v₀⟩ := e
    simp only [hasKey, List.any_cons, Bool.or_eq_false_iff] at h
    rw [setEntry, if_neg (by simp [h.1])]
    simp [ih (by simpa [hasKey] using h.2)]

/-- setEntry preserves key-name agreement when the new value is named after
its key. -/
theorem setEntry_agree (l : List (String × SkillMatch)) (k : String) (v : SkillMatch)
    (hagree : ∀ e ∈ l, e.2.skill.name = e.1) (hv : v.skill.name = k) :
    ∀ e ∈ setEntry l k v, e.2.skill.name = e.1 := by
  induction l with
  | nil =>
    intro e he
    simp [setEntry] at he
    subst he
    exact hv
  | cons e₀ t ih =>
    obtain ⟨k₀, v₀⟩ := e₀
    intro e he
    by_cases hk : (k₀ == k) = true
    · rw [setEntry, if_pos hk] at he
      rcases List.mem_cons.mp he with he' | hm
      · subst he'
        rw [show k₀ = k from by simpa using hk]
        exact hv
      · exact hagree e (List.mem_cons_of_mem _ hm)
    · rw [setEntry, if_neg hk] at he
      rcases List.mem_cons.mp he with he' | hm
      · exact hagree e (by rw [he']; exact List.mem_cons_self _ _)
      · exact ih (fun e' he' => hagree e' (List.mem_cons_of_mem _ he')) e hm

/-- setEntry preserves the resolved-map invariant when the value is named
after its key. -/
theorem setEntry_inv (l : List (String × SkillMatch)) (k : String) (v : SkillMatch)
    (h : ResolvedInv l) (hv : v.skill.name = k) : ResolvedInv (setEntry l k v) := by
  constructor
  · by_cases hk : hasKey l k = true
    · rw [setEntry_keys_of_has l k v hk]
      exact h.1
    · rw [setEntry_keys_of_not l k v (by simpa using hk)]
      have hnot : k ∉ l.map (fun e => e.1) :=
        (hasKey_eq_false_iff l k).mp (by simpa using hk)
      simp [List.nodup_append, h.1, hnot]
  · exact setEntry_agree l k v h.2 hv


/-- The seeding fold preserves the resolved-map invariant. -/
theorem seed_fold_inv (l : List SkillMatch) :
    ∀ acc, ResolvedInv acc →
      ResolvedInv (l.foldl (fun acc m => setEntry acc m.skill.name m) acc) := by
  induction l with
  | nil => intro acc h; exact h
  | cons m rest ih =>
    intro acc h
    rw [List.foldl_cons]
    exact ih _ (setEntry_inv acc m.skill.name m h rfl)

/-- The seeded map satisfies the resolved-map invariant. -/
theorem seedResolved_inv (ml : List SkillMatch) : ResolvedInv (seedResolved ml) :=
  seed_fold_inv ml [] ⟨List.nodup_nil, by simp⟩

/-- The seeding fold keeps an entry whose key none of the remaining matches
carries. -/
theorem seed_fold_preserve (l : List SkillMatch) :
    ∀ (acc : List (String × SkillMatch)) (k : String) (v : SkillMatch),
      (k, v) ∈ acc → k ∉ l.map (fun m => m.skill.name) →
      (k, v) ∈ l.foldl (fun acc m => setEntry acc m.skill.name m) acc := by
  induction l with
  | nil => intro acc k v h _; exact h
  | cons m rest ih =>
    intro acc k v h hk
    simp only [List.map_cons, List.mem_cons, not_or] at hk
    rw [List.foldl_cons]
    exact ih _ k v (setEntry_mem_of_ne acc m.skill.name m k v h (fun he => hk.1 he)) hk.2

/-- With unique match names, seeding maps each match name to that match. -/
theorem seedResolved_mem (ml : List SkillMatch) (m : SkillMatch)
    (hnd : (ml.map (fun m => m.skill.name)).Nodup) (hm : m ∈ ml) :
    (m.skill.name, m) ∈ seedResolved ml := by
  suffices hgen : ∀ (l : List SkillMatch) (acc : List (String × SkillMatch)),
      m ∈ l → (l.map (fun m => m.skill.name)).Nodup →
      (m.skill.name, m) ∈ l.foldl (fun acc m => setEntry acc m.skill.name m) acc by
    exact hgen ml [] hm hnd
  intro l
  induction l with
  | nil => intro acc h; cases h
  | cons m' rest ih =>
    intro acc hmem hnd'
    simp only [List.map_cons, List.nodup_cons] at hnd'
    rw [List.foldl_cons]
    rcases List.mem_cons.mp hmem with he | hr
    · subst he
      exact seed_fold_preserve rest _ m.skill.name m
        (setEntry_mem_self acc m.skill.name m) hnd'.1
    · exact ih _ hr hnd'.2

/-- One depStep extends the resolved map, pushes only matches for newly
resolved catalog names, and does not increase the measure. -/
theorem depStep_fold_bound (availableSkills : List RegistrySkill) (cur : SkillMatch)
    (deps : List String) :
    ∀ (res : List (String × SkillMatch)) (p : List SkillMatch),
      ((deps.foldl (depStep availableSkills cur) (res, p)).2.length
        + unresolvedCount availableSkills
            (deps.foldl (depStep availableSkills cur) (res, p)).1)
      ≤ p.length + unresolvedCount availableSkills res := by
  induction deps with
  | nil => intro res p; simp
  | cons d rest ih =>
    intro res p
    rw [List.foldl_cons]
    by_cases hk : hasKey res d = true
    · rw [show depStep availableSkills cur (res, p) d = (res, p) by
        simp [depStep, hk]]
      exact ih res p
    · have hk' : hasKey res d = false := by simpa using hk
      cases hf : availableSkills.find? (fun s => s.name == d) with
      | none =>
        rw [show depStep availableSkills cur (res, p) d = (res, p) by
          simp [depStep, hk', hf]]
        exact ih res p
      | some depSkill =>
        have hstep : depStep availableSkills cur (res, p) d =
            (res ++ [(d, { skill := depSkill,
                           matchedBy := "dependency of " ++ cur.skill.name,
                           confidence := cur.confidence * 0.8,
                           source := .dependency })],
             { skill := depSkill, matchedBy := "dependency of " ++ cur.skill.name,
               confidence := cur.confidence * 0.8, source := .dependency } :: p) := by
          simp [depStep, hk', hf]
        rw [hstep]
        have hdmem : d ∈ availableSkills.map (fun s => s.name) := by
          have hmem := List.mem_of_find?_eq_some hf
          have hname : depSkill.name = d := by
            have := List.find?_some hf
            simpa using this
          exact hname ▸ List.mem_map_of_mem (fun s => s.name) hmem
        have hcount := unresolvedCount_append_lt availableSkills res d
          { skill := depSkill, matchedBy := "dependency of " ++ cur.skill.name,
            confidence := cur.confidence * 0.8, source := .dependency } hdmem hk'
        calc (rest.foldl (depStep availableSkills cur) _).2.length
              + unresolvedCount availableSkills (rest.foldl (depStep availableSkills cur) _).1
            ≤ _ + 1 + unresolvedCount availableSkills (res ++ [(d, _)]) := ih _ _
          _ ≤ p.length + unresolvedCount availableSkills res := by omega

/-- The expandDeps measure bound: pushes plus the remaining unresolved count
never exceed the unresolved count before the expansion. -/
theorem expandDeps_bound (availableSkills : List RegistrySkill) (cur : SkillMatch)
    (res : List (String × SkillMatch)) :
    (expandDeps availableSkills cur res).2.length
      + unresolvedCount availableSkills (expandDeps availableSkills cur res).1
    ≤ unresolvedCount availableSkills res := by
  unfold expandDeps
  cases cur.skill.dependencies with
  | none => simp
  | some deps => simpa using depStep_fold_bound availableSkills cur deps res []


/-- The depStep fold only appends to the resolved map. -/
theorem depStep_fold_extends (availableSkills : List RegistrySkill) (cur : SkillMatch)
    (deps : List String) :
    ∀ (res : List (String × SkillMatch)) (p : List SkillMatch),
      ∃ ext, (deps.foldl (depStep availableSkills cur) (res, p)).1 = res ++ ext := by
  induction deps with
  | nil => intro res p; exact ⟨[], by simp⟩
  | cons d rest ih =>
    intro res p
    rw [List.foldl_cons]
    by_cases hk : hasKey res d = true
    · rw [show depStep availableSkills cur (res, p) d = (res, p) by simp [depStep, hk]]
      exact ih res p
    · have hk' : hasKey res d = false := by simpa using hk
      cases hf : availableSkills.find? (fun s => s.name == d) with
      | none =>
        rw [show depStep availableSkills cur (res, p) d = (res, p) by
          simp [depStep, hk', hf]]
        exact ih res p
      | some depSkill =>
        rw [show depStep availableSkills cur (res, p) d =
            (res ++ [(d, { skill := depSkill,
                           matchedBy := "dependency of " ++ cur.skill.name,
                           confidence := cur.confidence * 0.8,
                           source := .dependency })],
             { skill := depSkill, matchedBy := "dependency of " ++ cur.skill.name,
               confidence := cur.confidence * 0.8, source := .dependency } :: p) by
          simp [depStep, hk', hf]]
        obtain ⟨ext, hext⟩ := ih _ _
        refine ⟨[(d, { skill := depSkill,
                       matchedBy := "dependency of " ++ cur.skill.name,
                       confidence := cur.confidence * 0.8,
                       source := .dependency })] ++ ext, ?_⟩
        rw [hext, List.append_assoc]

/-- The depStep fold preserves the resolved-map invariant. -/
theorem depStep_fold_inv (availableSkills : List RegistrySkill) (cur : SkillMatch)
    (deps : List String) :
    ∀ (res : List (String × SkillMatch)) (p : List SkillMatch), ResolvedInv res →
      ResolvedInv (deps.foldl (depStep availableSkills cur) (res, p)).1 := by
  induction deps with
  | nil => intro res p h; exact h
  | cons d rest ih =>
    intro res p h
    rw [List.foldl_cons]
    by_cases hk : hasKey res d = true
    · rw [show depStep availableSkills cur (res, p) d = (res, p) by simp [depStep, hk]]
      exact ih res p h
    · have hk' : hasKey res d = false := by simpa using hk
      cases hf : availableSkills.find? (fun s => s.name == d) with
      | none =>
        rw [show depStep availableSkills cur (res, p) d = (res, p) by
          simp [depStep, hk', hf]]
        exact ih res p h
      | some depSkill =>
        have hname : depSkill.name = d := by
          have := List.find?_some hf
          simpa using this
        rw [show depStep availableSkills cur (res, p) d =
            (res ++ [(d, { skill := depSkill,
                           matchedBy := "dependency of " ++ cur.skill.name,
                           confidence := cur.confidence * 0.8,
                           source := .dependency })],
             { skill := depSkill, matchedBy := "dependency of " ++ cur.skill.name,
               confidence := cur.confidence * 0.8, source := .dependency } :: p) by
          simp [depStep, hk', hf]]
        refine ih _ _ ⟨?_, ?_⟩
        · have hnot : d ∉ res.map (fun e => e.1) := (hasKey_eq_false_iff res d).mp hk'
          simp [List.nodup_append, h.1, hnot]
        · intro e he
          rcases List.mem_append.mp he with hm | hm
          · exact h.2 e hm
          · simp only [List.mem_singleton] at hm
            subst hm
            exact hname

/-- expandDeps only appends to the resolved map. -/
theorem expandDeps_extends (availableSkills : List RegistrySkill) (cur : SkillMatch)
    (res : List (String × SkillMatch)) :
    ∃ ext, (expandDeps availableSkills cur res).1 = res ++ ext := by
  unfold expandDeps
  cases cur.skill.dependencies with
  | none => exact ⟨[], by simp⟩
  | some deps => exact depStep_fold_extends availableSkills cur deps res []

/-- expandDeps preserves the resolved-map invariant. -/
theorem expandDeps_inv (availableSkills : List RegistrySkill) (cur : SkillMatch)
    (res : List (String × SkillMatch)) (h : ResolvedInv res) :
    ResolvedInv (expandDeps availableSkills cur res).1 := by
  unfold expandDeps
  cases cur.skill.dependencies with
  | none => exact h
  | some deps => exact depStep_fold_inv availableSkills cur deps res [] h

/-- processDeps only appends to the resolved map. -/
theorem processDeps_extends (availableSkills : List RegistrySkill) :
    ∀ (fuel : Nat) (tp : List SkillMatch) (res r : List (String × SkillMatch)),
      processDeps availableSkills fuel tp res = some r → ∃ ext, r = res ++ ext := by
  intro fuel
  induction fuel with
  | zero =>
    intro tp res r h
    cases tp with
    | nil => exact ⟨[], by cases h; simp⟩
    | cons c rest => cases h
  | succ fuel ih =>
    intro tp res r h
    cases tp with
    | nil => exact ⟨[], by cases h; simp⟩
    | cons c rest =>
      rw [processDeps] at h
      obtain ⟨ext1, hext1⟩ := ih _ _ _ h
      obtain ⟨ext0, hext0⟩ := expandDeps_extends availableSkills c res
      exact ⟨ext0 ++ ext1, by rw [hext1, hext0, List.append_assoc]⟩

/-- processDeps preserves the resolved-map invariant. -/
theorem processDeps_inv (availableSkills : List RegistrySkill) :
    ∀ (fuel : Nat) (tp : List SkillMatch) (res r : List (String × SkillMatch)),
      ResolvedInv res → processDeps availableSkills fuel tp res = some r →
      ResolvedInv r := by
  intro fuel
  induction fuel with
  | zero =>
    intro tp res r hres h
    cases tp with
    | nil => cases h; exact hres
    | cons c rest => cases h
  | succ fuel ih =>
    intro tp res r hres h
    cases tp with
    | nil => cases h; exact hres
    | cons c rest =>
      rw [processDeps] at h
      exact ih _ _ _ (expandDeps_inv availableSkills c res hres) h

/-- processDeps succeeds whenever the fuel covers the work list plus the
unresolved catalog names — the termination argument of the dependency
closure. -/
theorem processDeps_total (availableSkills : List RegistrySkill) :
    ∀ (fuel : Nat) (tp : List SkillMatch) (res : List (String × SkillMatch)),
      tp.length + unresolvedCount availableSkills res ≤ fuel →
      ∃ r, processDeps availableSkills fuel tp res = some r := by
  intro fuel
  induction fuel with
  | zero =>
    intro tp res hb
    cases tp with
    | nil => exact ⟨res, rfl⟩
    | cons c rest => simp at hb
  | succ fuel ih =>
    intro tp res hb
    cases tp with
    | nil => exact ⟨res, rfl⟩
    | cons c rest =>
      rw [processDeps]
      refine ih _ _ ?_
      have hexp := expandDeps_bound availableSkills c res
      have : (expandDeps availableSkills c res).2.length + rest.length
          + unresolvedCount availableSkills (expandDeps availableSkills c res).1
          ≤ rest.length + unresolvedCount availableSkills res := by omega
      simp only [List.length_cons] at hb
      simp only [List.length_append]
      omega

/-- The canonical fuel suffices for the initial state of resolveDependencies. -/
theorem resolveDependencies_some (ml : List SkillMatch)
    (availableSkills : List RegistrySkill) :
    ∃ r, processDeps availableSkills (depFuel ml availableSkills)
      ml.reverse (seedResolved ml) = some r := by
  refine processDeps_total availableSkills _ _ _ ?_
  have h1 : ml.reverse.length = ml.length := List.length_reverse ml
  have h2 : unresolvedCount availableSkills (seedResolved ml) ≤ availableSkills.length := by
    have hf : (((availableSkills.map (fun s => s.name)).dedup).filter
        (fun n => !(hasKey (seedResolved ml) n))).length
        ≤ ((availableSkills.map (fun s => s.name)).dedup).length :=
      List.length_filter_le _ _
    have hd : ((availableSkills.map (fun s => s.name)).dedup).length
        ≤ (availableSkills.map (fun s => s.name)).length :=
      (List.dedup_sublist _).length_le
    have hm : (availableSkills.map (fun s => s.name)).length = availableSkills.length :=
      List.length_map _ _
    unfold unresolvedCount
    omega
  unfold depFuel
  omega


/-- C4.  Dependency resolution terminates for every catalog, cyclic
dependency graphs included: the canonical fuel always suffices (the fallback
branch of resolveDependencies is dead), every resolved skill name appears at
most once, and the concrete A-B cycle seeded with a direct match on A
resolves to exactly {A, B}, each once. -/
theorem resolveDependencies_terminates :
    (∀ (ml : List SkillMatch) (availableSkills : List RegistrySkill),
      ∃ r, processDeps availableSkills (depFuel ml availableSkills)
          ml.reverse (seedResolved ml) = some r ∧
        resolveDependencies ml availableSkills = r.map (fun e => e.2)) ∧
    (∀ (ml : List SkillMatch) (availableSkills : List RegistrySkill),
      ((resolveDependencies ml availableSkills).map (fun m => m.skill.name)).Nodup) ∧
    (resolveDependencies [cycMatchA] [cycA, cycB]).map (fun m => m.skill.name)
      = ["A", "B"] := by
  have hmain : ∀ (ml : List SkillMatch) (availableSkills : List RegistrySkill),
      ∃ r, processDeps availableSkills (depFuel ml availableSkills)
          ml.reverse (seedResolved ml) = some r ∧
        resolveDependencies ml availableSkills = r.map (fun e => e.2) := by
    intro ml avail
    obtain ⟨r, hr⟩ := resolveDependencies_some ml avail
    refine ⟨r, hr, ?_⟩
    unfold resolveDependencies
    rw [hr]
  refine ⟨hmain, ?_, ?_⟩
  · intro ml avail
    obtain ⟨r, hr, heq⟩ := hmain ml avail
    have hinv := processDeps_inv avail _ _ _ _ (seedResolved_inv ml) hr
    rw [heq]
    have hnames : (r.map (fun e => e.2)).map (fun m => m.skill.name)
        = r.map (fun e => e.1) := by
      rw [List.map_map]
      exact List.map_congr_left (fun e he => hinv.2 e he)
    rw [hnames]
    exact hinv.1
  · rfl


/-- Mapping a filterMap is a sublist of mapping the source when the images
agree. -/
theorem map_filterMap_sublist {α β γ : Type} (l : List α) (f : α → Option β)
    (g : β → γ) (h : α → γ) (hfg : ∀ a b, f a = some b → g b = h a) :
    List.Sublist ((l.filterMap f).map g) (l.map h) := by
  induction l with
  | nil => simp
  | cons a t ih =>
    cases hf : f a with
    | none =>
      rw [List.filterMap_cons, hf, List.map_cons]
      exact List.Sublist.cons _ ih
    | some b =>
      rw [List.filterMap_cons, hf, List.map_cons, List.map_cons, hfg a b hf]
      exact List.Sublist.cons₂ _ ih

/-- A produced match wraps exactly the catalog entry it was produced for. -/
theorem matchForSkill_skill (ad : List DetectedTechnology) (skill : RegistrySkill)
    (m : SkillMatch) (h : matchForSkill ad skill = some m) : m.skill = skill := by
  unfold matchForSkill at h
  by_cases hmo : skill.triggers.manual_only = some true
  · rw [if_pos hmo] at h; cases h
  · rw [if_neg hmo] at h
    cases h1 : ad.find? (fun d => d.id == skill.name) with
    | some directMatch => simp only [h1] at h; cases h; rfl
    | none =>
      simp only [h1] at h
      cases h2 : skill.triggers.packages with
      | none => simp only [h2] at h; cases h
      | some pkgs =>
        simp only [h2] at h
        cases h3 : ad.find?
            (fun d => pkgs.any (fun pkg => strIncludes d.source.toLower pkg.toLower)) with
        | none => simp only [h3] at h; cases h
        | some detected => simp only [h3] at h; cases h; rfl

/-- With unique catalog names, the matched skills have unique names. -/
theorem matchSkillsToStack_names_nodup (stack : DetectedStack)
    (availableSkills : List RegistrySkill)
    (h : (availableSkills.map (fun s => s.name)).Nodup) :
    ((matchSkillsToStack stack availableSkills).map (fun m => m.skill.name)).Nodup := by
  have hsub := map_filterMap_sublist availableSkills
    (matchForSkill (allDetectedOf stack)) (fun m => m.skill.name) (fun s => s.name)
    (fun a b hb => by simp [matchForSkill_skill _ a b hb])
  exact h.sublist hsub

/-- find?-by-name returns an entry carrying that name. -/
theorem find?_skill_name (availableSkills : List RegistrySkill) (n : String)
    (sk : RegistrySkill) (h : availableSkills.find? (fun s => s.name == n) = some sk) :
    sk.name = n := by
  have := List.find?_some h
  simpa using this

/-- The always_include fold only appends. -/
theorem addManualSkills_extends (availableSkills : List RegistrySkill)
    (inc : List String) :
    ∀ acc, ∃ ext, addManualSkills availableSkills inc acc = acc ++ ext := by
  induction inc with
  | nil => intro acc; exact ⟨[], by simp [addManualSkills]⟩
  | cons n rest ih =>
    intro acc
    have hstep : addManualSkills availableSkills (n :: rest) acc =
        addManualSkills availableSkills rest
          (match availableSkills.find? (fun s => s.name == n) with
           | none => acc
           | some skill =>
             if (acc.find? (fun m => m.skill.name == n)).isSome then acc
             else acc ++ [manualMatchOf skill]) := by
      simp only [addManualSkills, List.foldl_cons]
    rw [hstep]
    cases hf : availableSkills.find? (fun s => s.name == n) with
    | none => exact ih acc
    | some skill =>
      cases hg : (acc.find? (fun m => m.skill.name == n)).isSome with
      | true => exact ih acc
      | false =>
        obtain ⟨ext, hext⟩ := ih (acc ++ [manualMatchOf skill])
        exact ⟨[manualMatchOf skill] ++ ext, by
          rw [show addManualSkills availableSkills rest
              (match some skill with
               | none => acc
               | some skill =>
                 if false = true then acc else acc ++ [manualMatchOf skill]) =
              addManualSkills availableSkills rest (acc ++ [manualMatchOf skill]) from rfl]
          rw [hext, List.append_assoc]⟩

/-- The always_include fold preserves name uniqueness of the match list. -/
theorem addManualSkills_nodup (availableSkills : List RegistrySkill)
    (inc : List String) :
    ∀ acc, ((acc.map (fun m => m.skill.name)).Nodup) →
      (((addManualSkills availableSkills inc acc).map (fun m => m.skill.name)).Nodup) := by
  induction inc with
  | nil => intro acc h; simpa [addManualSkills] using h
  | cons n rest ih =>
    intro acc hacc
    have hstep : addManualSkills availableSkills (n :: rest) acc =
        addManualSkills availableSkills rest
          (match availableSkills.find? (fun s => s.name == n) with
           | none => acc
           | some skill =>
             if (acc.find? (fun m => m.skill.name == n)).isSome then acc
             else acc ++ [manualMatchOf skill]) := by
      simp only [addManualSkills, List.foldl_cons]
    rw [hstep]
    cases hf : availableSkills.find? (fun s => s.name == n) with
    | none => exact ih acc hacc
    | some skill =>
      cases hg : (acc.find? (fun m => m.skill.name == n)).isSome with
      | true => exact ih acc hacc
      | false =>
        show ((addManualSkills availableSkills rest
          (acc ++ [manualMatchOf skill])).map (fun m => m.skill.name)).Nodup
        apply ih
        have hnone : acc.find? (fun m => m.skill.name == n) = none :=
          Option.not_isSome_iff_eq_none.mp (by simp [hg])
        have hnotin : skill.name ∉ acc.map (fun m => m.skill.name) := by
          have hall := List.find?_eq_none.mp hnone
          have hskn : skill.name = n := find?_skill_name availableSkills n skill hf
          rw [hskn]
          intro hmem
          obtain ⟨m, hm, hmn⟩ := List.mem_map.mp hmem
          exact hall m hm (by simp [hmn])
        simp [List.nodup_append, manualMatchOf, hacc, hnotin]

/-- If an always_include name is found in the catalog and either no current
match carries the name or the manual match is already present, the manual
match is present after the fold. -/
theorem addManualSkills_mem (availableSkills : List RegistrySkill) (inc : List String) :
    ∀ (acc : List SkillMatch) (n : String) (skill : RegistrySkill),
      n ∈ inc → availableSkills.find? (fun s => s.name == n) = some skill →
      ((∀ m ∈ acc, m.skill.name ≠ n) ∨ manualMatchOf skill ∈ acc) →
      manualMatchOf skill ∈ addManualSkills availableSkills inc acc := by
  induction inc with
  | nil => intro acc n skill hn; cases hn
  | cons n' rest ih =>
    intro acc n skill hn hf hdisj
    have hstep : addManualSkills availableSkills (n' :: rest) acc =
        addManualSkills availableSkills rest
          (match availableSkills.find? (fun s => s.name == n') with
           | none => acc
           | some sk =>
             if (acc.find? (fun m => m.skill.name == n')).isSome then acc
             else acc ++ [manualMatchOf sk]) := by
      simp only [addManualSkills, List.foldl_cons]
    rw [hstep]
    by_cases hcase : n' = n
    · subst hcase
      simp only [hf]
      rcases hdisj with hnone | hmem
      · have hg : (acc.find? (fun m => m.skill.name == n')).isSome = false := by
          cases hg2 : acc.find? (fun m => m.skill.name == n') with
          | none => rfl
          | some mm =>
            have hpred := List.find?_some hg2
            have hmm := List.mem_of_find?_eq_some hg2
            exact absurd (by simpa using hpred) (hnone mm hmm)
        rw [hg]
        obtain ⟨ext, hext⟩ :=
          addManualSkills_extends availableSkills rest (acc ++ [manualMatchOf skill])
        show manualMatchOf skill ∈
          addManualSkills availableSkills rest (acc ++ [manualMatchOf skill])
        rw [hext]
        exact List.mem_append_left _ (List.mem_append_right _ (List.mem_singleton_self _))
      · cases hg : (acc.find? (fun m => m.skill.name == n')).isSome with
        | true =>
          obtain ⟨ext, hext⟩ := addManualSkills_extends availableSkills rest acc
          show manualMatchOf skill ∈ addManualSkills availableSkills rest acc
          rw [hext]
          exact List.mem_append_left _ hmem
        | false =>
          obtain ⟨ext, hext⟩ :=
            addManualSkills_extends availableSkills rest (acc ++ [manualMatchOf skill])
          show manualMatchOf skill ∈
            addManualSkills availableSkills rest (acc ++ [manualMatchOf skill])
          rw [hext]
          exact List.mem_append_left _ (List.mem_append_left _ hmem)
    · have hn' : n ∈ rest := by
        rcases List.mem_cons.mp hn with h | h
        · exact absurd h.symm hcase
        · exact h
      cases hf2 : availableSkills.find? (fun s => s.name == n') with
      | none => exact ih acc n skill hn' hf hdisj
      | some skill' =>
        have hsk' : skill'.name = n' := find?_skill_name availableSkills n' skill' hf2
        cases hg : (acc.find? (fun m => m.skill.name == n')).isSome with
        | true => exact ih acc n skill hn' hf hdisj
        | false =>
          show manualMatchOf skill ∈
            addManualSkills availableSkills rest (acc ++ [manualMatchOf skill'])
          apply ih _ n skill hn' hf
          rcases hdisj with hnone | hmem
          · left
            intro m hm
            rcases List.mem_append.mp hm with h | h
            · exact hnone m h
            · simp only [List.mem_singleton] at h
              subst h
              simpa [manualMatchOf, hsk'] using hcase
          · right
            exact List.mem_append_left _ hmem


/-- C2 (amended).  An always_include name that exists in the catalog and is
not already matched from the detected stack appears in the preview's final
match set as the manual match (confidence 1.0, provenance manual) and in the
preview's manual_skills list, provided it is not excluded; a name already
matched by discovery is not re-added (the code guards on the existing match),
which is what the counterexample below exhibits. -/
theorem alwaysInclude_manual_match (availableSkills : List RegistrySkill)
    (config : MotherConfig) (stack : DetectedStack) (installed : List InstalledSkill)
    (pid name : String) (skill : RegistrySkill)
    (hcat : (availableSkills.map (fun s => s.name)).Nodup)
    (hinc : name ∈ config.skills.always_include)
    (hfound : availableSkills.find? (fun s => s.name == name) = some skill)
    (hnm : ∀ m ∈ matchSkillsToStack stack availableSkills, m.skill.name ≠ name)
    (hnx : name ∉ config.skills.always_exclude) :
    manualMatchOf skill ∈ (previewSyncPure availableSkills config stack installed pid).2 ∧
    name ∈ ((previewSyncPure availableSkills config stack installed pid).1).manual_skills := by
  have hskname : skill.name = name := find?_skill_name availableSkills name skill hfound
  have h1 : manualMatchOf skill ∈
      addManualSkills availableSkills config.skills.always_include
        (matchSkillsToStack stack availableSkills) :=
    addManualSkills_mem availableSkills config.skills.always_include
      (matchSkillsToStack stack availableSkills) name skill hinc hfound (Or.inl hnm)
  have h2 := addManualSkills_nodup availableSkills config.skills.always_include
    (matchSkillsToStack stack availableSkills)
    (matchSkillsToStack_names_nodup stack availableSkills hcat)
  have h3 : manualMatchOf skill ∈
      (addManualSkills availableSkills config.skills.always_include
        (matchSkillsToStack stack availableSkills)).filter
        (fun m => !(config.skills.always_exclude.contains m.skill.name)) := by
    refine List.mem_filter.mpr ⟨h1, ?_⟩
    simp [manualMatchOf, hskname, hnx]
  have h4 : ((((addManualSkills availableSkills config.skills.always_include
      (matchSkillsToStack stack availableSkills)).filter
      (fun m => !(config.skills.always_exclude.contains m.skill.name)))).map
      (fun m => m.skill.name)).Nodup :=
    h2.sublist (List.Sublist.map _ (List.filter_sublist _))
  have h5 := seedResolved_mem
    ((addManualSkills availableSkills config.skills.always_include
      (matchSkillsToStack stack availableSkills)).filter
      (fun m => !(config.skills.always_exclude.contains m.skill.name)))
    (manualMatchOf skill) h4 h3
  obtain ⟨r, hr⟩ := resolveDependencies_some
    ((addManualSkills availableSkills config.skills.always_include
      (matchSkillsToStack stack availableSkills)).filter
      (fun m => !(config.skills.always_exclude.contains m.skill.name))) availableSkills
  obtain ⟨ext, hext⟩ := processDeps_extends availableSkills _ _ _ _ hr
  have h6 : ((manualMatchOf skill).skill.name, manualMatchOf skill) ∈ r := by
    rw [hext]
    exact List.mem_append_left _ h5
  have h7 : manualMatchOf skill ∈ resolveDependencies
      ((addManualSkills availableSkills config.skills.always_include
        (matchSkillsToStack stack availableSkills)).filter
        (fun m => !(config.skills.always_exclude.contains m.skill.name)))
      availableSkills := by
    unfold resolveDependencies
    rw [hr]
    exact List.mem_map.mpr ⟨_, h6, rfl⟩
  have h8 : manualMatchOf skill ∈ (resolveDependencies
      ((addManualSkills availableSkills config.skills.always_include
        (matchSkillsToStack stack availableSkills)).filter
        (fun m => !(config.skills.always_exclude.contains m.skill.name)))
      availableSkills).filter
      (fun m => !(config.skills.always_exclude.contains m.skill.name)) := by
    refine List.mem_filter.mpr ⟨h7, ?_⟩
    simp [manualMatchOf, hskname, hnx]
  constructor
  · simpa only [previewSyncPure] using h8
  · have h9 : name ∈ manualSkillNames ((resolveDependencies
        ((addManualSkills availableSkills config.skills.always_include
          (matchSkillsToStack stack availableSkills)).filter
          (fun m => !(config.skills.always_exclude.contains m.skill.name)))
        availableSkills).filter
        (fun m => !(config.skills.always_exclude.contains m.skill.name))) := by
      unfold manualSkillNames
      refine List.mem_map.mpr ⟨manualMatchOf skill, ?_, by simp [manualMatchOf, hskname]⟩
      exact List.mem_filter.mpr ⟨h8, by simp [manualMatchOf]⟩
    simpa only [previewSyncPure] using h9

/-- C2 witness: empty detected stack, always_include react, react in the
catalog — the preview carries react as a manual match at confidence 1.0. -/
theorem alwaysInclude_manual_match_witness :
    (([reactSkill].map (fun s => s.name)).Nodup) ∧
    "react" ∈ cfgInc.skills.always_include ∧
    (manualMatchOf reactSkill ∈ (previewSyncPure [reactSkill] cfgInc emptyStack [] "p1").2 ∧
     "react" ∈ ((previewSyncPure [reactSkill] cfgInc emptyStack [] "p1").1).manual_skills) :=
  ⟨by decide, by decide,
    alwaysInclude_manual_match [reactSkill] cfgInc emptyStack [] "p1" "react" reactSkill
      (by decide) (by decide) rfl (by decide) (by decide)⟩

/-- C2 counterexample: react is in always_include and in the catalog, but the
detected stack already matched it, so the preview's match set carries react
with provenance discovery at the detected confidence 0.9 — not provenance
manual at confidence 1.0 — and manual_skills is empty, contradicting the
claim's "regardless of whether the detected stack also matched it". -/
theorem alwaysInclude_already_matched_counterexample :
    "react" ∈ cfgInc.skills.always_include ∧
    reactSkill ∈ [reactSkill] ∧ reactSkill.name = "react" ∧
    ((previewSyncPure [reactSkill] cfgInc stackReact [] "p2").2).map (fun m => m.source)
      = [SkillSource.discovery] ∧
    ((previewSyncPure [reactSkill] cfgInc stackReact [] "p2").2).map (fun m => m.confidence)
      = [q09] ∧
    q09 ≠ 1 ∧
    ((previewSyncPure [reactSkill] cfgInc stackReact [] "p2").1).manual_skills = [] :=
  ⟨by decide, by decide, rfl, rfl, rfl, by decide, rfl⟩


/-- The constructor's stable sort puts the smaller-priority source first, for
either input order of two sources. -/
theorem sortByPriority_pair (a b : RegistrySource) (hp : a.priority < b.priority) :
    sortByPriority [a, b] = [a, b] ∧ sortByPriority [b, a] = [a, b] := by
  constructor
  · simp only [sortByPriority, List.foldl_cons, List.foldl_nil, sortInsert]
    rw [if_neg (not_lt.mpr (le_of_lt hp))]
  · simp only [sortByPriority, List.foldl_cons, List.foldl_nil, sortInsert]
    rw [if_pos hp]

/-- Once a name is seen, the inner loop never again contributes an entry with
that name, and the name stays seen. -/
theorem seenStep_fold_skip (r : RegistrySource) (skills : List RegistrySkill) :
    ∀ (seen : List String) (out : List RegistrySkill) (X : String), X ∈ seen →
      ((skills.foldl (seenStep r) (seen, out)).2).filter (fun s => s.name == X)
        = out.filter (fun s => s.name == X) ∧
      X ∈ (skills.foldl (seenStep r) (seen, out)).1 := by
  induction skills with
  | nil => intro seen out X hX; exact ⟨rfl, hX⟩
  | cons sk rest ih =>
    intro seen out X hX
    rw [List.foldl_cons]
    by_cases hc : seen.contains sk.name = true
    · rw [show seenStep r (seen, out) sk = (seen, out) by
        simp only [seenStep]; rw [if_pos hc]]
      exact ih seen out X hX
    · have hc' : seen.contains sk.name = false := by simpa using hc
      rw [show seenStep r (seen, out) sk =
          (sk.name :: seen, out ++ [{ sk with path := resolveSkillPath r sk }]) by
        simp only [seenStep]; rw [if_neg (by rw [hc']; exact Bool.false_ne_true)]]
      have hne : sk.name ≠ X := by
        intro he
        rw [he] at hc'
        rw [show seen.contains X = true by simpa using hX] at hc'
        cases hc'
      have hfil : (out ++ [{ sk with path := resolveSkillPath r sk }]).filter
          (fun s => s.name == X) = out.filter (fun s => s.name == X) := by
        rw [List.filter_append]
        simp [hne]
      obtain ⟨h1, h2⟩ := ih (sk.name :: seen)
        (out ++ [{ sk with path := resolveSkillPath r sk }]) X
        (List.mem_cons_of_mem _ hX)
      exact ⟨by rw [h1, hfil], h2⟩

/-- For an unseen name declared in the source, the inner loop contributes
exactly the first same-named skill (with resolved path), and marks the name
seen. -/
theorem seenStep_fold_find (r : RegistrySource) (skills : List RegistrySkill) :
    ∀ (seen : List String) (out : List RegistrySkill) (X : String) (sa : RegistrySkill),
      X ∉ seen → skills.find? (fun s => s.name == X) = some sa →
      out.filter (fun s => s.name == X) = [] →
      ((skills.foldl (seenStep r) (seen, out)).2).filter (fun s => s.name == X)
        = [{ sa with path := resolveSkillPath r sa }] ∧
      X ∈ (skills.foldl (seenStep r) (seen, out)).1 := by
  induction skills with
  | nil => intro seen out X sa _ hfind; cases hfind
  | cons sk rest ih =>
    intro seen out X sa hX hfind hout
    rw [List.foldl_cons]
    by_cases hn : (sk.name == X) = true
    · have hskX : sk.name = X := by simpa using hn
      have hsa : sk = sa := by
        rw [List.find?_cons, hn] at hfind
        cases hfind
        rfl
      have hc' : seen.contains sk.name = false := by
        rw [hskX]
        cases hc2 : seen.contains X with
        | false => rfl
        | true => exact absurd (by simpa using hc2) hX
      rw [show seenStep r (seen, out) sk =
          (sk.name :: seen, out ++ [{ sk with path := resolveSkillPath r sk }]) by
        simp only [seenStep]; rw [if_neg (by rw [hc']; exact Bool.false_ne_true)]]
      have hXseen : X ∈ sk.name :: seen := by
        rw [hskX]
        exact List.mem_cons_self _ _
      obtain ⟨h1, h2⟩ := seenStep_fold_skip r rest (sk.name :: seen)
        (out ++ [{ sk with path := resolveSkillPath r sk }]) X hXseen
      refine ⟨?_, h2⟩
      subst hsa
      rw [h1, List.filter_append, hout]
      simp [hn]
    · have hn' : (sk.name == X) = false := by simpa using hn
      have hfind' : rest.find? (fun s => s.name == X) = some sa := by
        rw [List.find?_cons, hn'] at hfind
        exact hfind
      by_cases hc : seen.contains sk.name = true
      · rw [show seenStep r (seen, out) sk = (seen, out) by
          simp only [seenStep]; rw [if_pos hc]]
        exact ih seen out X sa hX hfind' hout
      · have hc' : seen.contains sk.name = false := by simpa using hc
        rw [show seenStep r (seen, out) sk =
            (sk.name :: seen, out ++ [{ sk with path := resolveSkillPath r sk }]) by
          simp only [seenStep]; rw [if_neg (by rw [hc']; exact Bool.false_ne_true)]]
        have hXs : X ∉ sk.name :: seen := by
          intro hmem
          rcases List.mem_cons.mp hmem with he | hm
          · exact hn (by simp [he])
          · exact hX hm
        have hfil : (out ++ [{ sk with path := resolveSkillPath r sk }]).filter
            (fun s : RegistrySkill => s.name == X) = [] := by
          rw [List.filter_append, hout]
          simp [hn']
        exact ih (sk.name :: seen)
          (out ++ [{ sk with path := resolveSkillPath r sk }]) X sa hXs hfind' hfil

/-- C3.  Priority precedence of getAllSkills: for two sources with distinct
priorities both declaring a name X (in either input order), the aggregated
catalog contains exactly one entry named X — the first X-named skill of the
smaller-priority source's index, with its path resolved against that
source. -/
theorem getAllSkills_priority_precedence (a b : RegistrySource)
    (fetched : RegistrySource → Option RegistryIndex) (ia ib : RegistryIndex)
    (l : List RegistrySource) (X : String) (sa : RegistrySkill)
    (hp : a.priority < b.priority)
    (hl : l = [a, b] ∨ l = [b, a])
    (hfa : fetched a = some ia) (hfb : fetched b = some ib)
    (hfind : ia.skills.find? (fun s => s.name == X) = some sa)
    (_hXb : ∃ s ∈ ib.skills, s.name = X) :
    (getAllSkills l fetched).filter (fun s => s.name == X)
      = [{ sa with path := resolveSkillPath a sa }] := by
  have hsorted : sortByPriority l = [a, b] := by
    rcases hl with h | h
    · rw [h]; exact (sortByPriority_pair a b hp).1
    · rw [h]; exact (sortByPriority_pair a b hp).2
  unfold getAllSkills
  rw [hsorted]
  rw [show aggregateSkills fetched [a, b] [] [] = aggregateSkills fetched [b]
      (ia.skills.foldl (seenStep a) ([], [])).1
      (ia.skills.foldl (seenStep a) ([], [])).2 by
    simp only [aggregateSkills, hfa]]
  rw [show aggregateSkills fetched [b]
      (ia.skills.foldl (seenStep a) ([], [])).1
      (ia.skills.foldl (seenStep a) ([], [])).2 = aggregateSkills fetched []
      (ib.skills.foldl (seenStep b) ((ia.skills.foldl (seenStep a) ([], [])).1,
        (ia.skills.foldl (seenStep a) ([], [])).2)).1
      (ib.skills.foldl (seenStep b) ((ia.skills.foldl (seenStep a) ([], [])).1,
        (ia.skills.foldl (seenStep a) ([], [])).2)).2 by
    simp only [aggregateSkills, hfb]]
  obtain ⟨ha1, ha2⟩ := seenStep_fold_find a ia.skills [] [] X sa
    (List.not_mem_nil X) hfind rfl
  obtain ⟨hb1, _⟩ := seenStep_fold_skip b ib.skills
    (ia.skills.foldl (seenStep a) ([], [])).1
    (ia.skills.foldl (seenStep a) ([], [])).2 X ha2
  rw [show aggregateSkills fetched []
      (ib.skills.foldl (seenStep b) ((ia.skills.foldl (seenStep a) ([], [])).1,
        (ia.skills.foldl (seenStep a) ([], [])).2)).1
      (ib.skills.foldl (seenStep b) ((ia.skills.foldl (seenStep a) ([], [])).1,
        (ia.skills.foldl (seenStep a) ([], [])).2)).2 =
      (ib.skills.foldl (seenStep b) ((ia.skills.foldl (seenStep a) ([], [])).1,
        (ia.skills.foldl (seenStep a) ([], [])).2)).2 from rfl]
  rw [show ((ia.skills.foldl (seenStep a) ([], [])).1,
      (ia.skills.foldl (seenStep a) ([], [])).2) =
      ia.skills.foldl (seenStep a) ([], []) from rfl]
  rw [hb1]
  exact ha1

/-- C3 witness: two concrete sources both declaring X (versions 1.0.0 and
2.0.0), fed in reverse order — the aggregated catalog keeps exactly the
priority-1 source's X. -/
theorem getAllSkills_priority_precedence_witness :
    regA.priority < regB.priority ∧ fetchedAB regA = some idxA ∧
    (∃ s ∈ idxB.skills, s.name = "X") ∧
    (getAllSkills [regB, regA] fetchedAB).filter (fun s => s.name == "X")
      = [{ skXa with path := resolveSkillPath regA skXa }] :=
  ⟨by decide, rfl, ⟨skXb, by decide, rfl⟩,
    getAllSkills_priority_precedence regA regB fetchedAB idxA idxB [regB, regA] "X" skXa
      (by decide) (Or.inr rfl) rfl rfl rfl ⟨skXb, by decide, rfl⟩⟩

end MotherSkills
